import Mathlib

set_option maxRecDepth 8000

namespace JsonParserPy

/-- Python strings are modelled as lists of characters. -/
abbrev Str := List Char

mutual

/-- JSON values as produced by json.load: null, booleans, numbers (integers in this
development, since no claim depends on float behaviour), strings, arrays and objects.
Objects keep their key-value pairs in document order, mirroring Python dicts. -/
inductive Json where
  | null : Json
  | bool (b : Bool) : Json
  | num (n : Int) : Json
  | str (s : Str) : Json
  | arr (xs : JsonList) : Json
  | obj (fs : JsonFields) : Json

/-- Lists of JSON values (a separate type so that all recursions stay structural). -/
inductive JsonList where
  | nil : JsonList
  | cons (hd : Json) (tl : JsonList) : JsonList

/-- Key-value lists of a JSON object, in document order. -/
inductive JsonFields where
  | nil : JsonFields
  | cons (k : Str) (v : Json) (tl : JsonFields) : JsonFields

end

/-- View of a JsonList as an ordinary Lean list. -/
def JsonList.toList : JsonList → List Json
  | .nil => []
  | .cons h t => h :: t.toList

/-- View of a JsonFields as an ordinary Lean association list. -/
def JsonFields.toList : JsonFields → List (Str × Json)
  | .nil => []
  | .cons k v t => (k, v) :: t.toList

/-- Keys of an object, in order (what iterating a Python dict yields). -/
def JsonFields.keys : JsonFields → List Str
  | .nil => []
  | .cons k _ t => k :: t.keys

/-- First binding of a key in an object (objects coming from json.load have
unique keys, so this is Python dict lookup). -/
def JsonFields.lookup : JsonFields → Str → Option Json
  | .nil, _ => none
  | .cons k v t, key => if k = key then some v else t.lookup key

/-- Python `key in dict`. -/
def JsonFields.hasKey (fs : JsonFields) (key : Str) : Bool :=
  (fs.lookup key).isSome

/-- Python `dict.get(key, default)`. -/
def JsonFields.getD (fs : JsonFields) (key : Str) (d : Json) : Json :=
  match fs.lookup key with
  | some v => v
  | none => d

/-- ASCII model of the whitespace class used by the regex `\S`
(space, tab, newline, carriage return, vertical tab, form feed). -/
def isSpace (c : Char) : Bool :=
  c == ' ' || c == '\t' || c == '\n' || c == '\r' || c.toNat == 11 || c.toNat == 12

/-- The literal pattern piece `http://`. -/
def httpPat : Str := "http://".data

/-- The literal pattern piece `https://`. -/
def httpsPat : Str := "https://".data

/-- One attempt of the regex `https?://\S+` at the current position: if the input
starts with one of the two literal prefixes followed by at least one non-whitespace
character, return the maximal match together with the remaining input. -/
def tryMatch (input : Str) : Option (Str × Str) :=
  if httpsPat.isPrefixOf input then
    if ((input.drop 8).takeWhile (fun c => !isSpace c)).isEmpty then none
    else some (httpsPat ++ (input.drop 8).takeWhile (fun c => !isSpace c),
               (input.drop 8).dropWhile (fun c => !isSpace c))
  else if httpPat.isPrefixOf input then
    if ((input.drop 7).takeWhile (fun c => !isSpace c)).isEmpty then none
    else some (httpPat ++ (input.drop 7).takeWhile (fun c => !isSpace c),
               (input.drop 7).dropWhile (fun c => !isSpace c))
  else none

/-- Scanning loop of `re.findall`: leftmost, non-overlapping matches; on a match the
scan resumes after the match, otherwise it advances one character.  The fuel is an
upper bound on the number of scanning steps; `findall` passes the input length. -/
def findallAux : Nat → Str → List Str
  | 0, _ => []
  | _ + 1, [] => []
  | fuel + 1, c :: rest =>
    match tryMatch (c :: rest) with
    | some (m, rem) => m :: findallAux fuel rem
    | none => findallAux fuel rest

/-- Model of `re.findall(r"https?://\S+", s)`. -/
def findall (s : Str) : List Str := findallAux s.length s

mutual

/-- The recursive `search` helper of `extract_urls`: walk the tree, collect the
regex matches of every string value, in traversal order; dict keys are not scanned. -/
def searchJson : Json → List Str
  | .null => []
  | .bool _ => []
  | .num _ => []
  | .str s => findall s
  | .arr xs => searchList xs
  | .obj fs => searchFields fs

/-- `search` over the elements of an array. -/
def searchList : JsonList → List Str
  | .nil => []
  | .cons h t => searchJson h ++ searchList t

/-- `search` over the values of an object (keys are skipped). -/
def searchFields : JsonFields → List Str
  | .nil => []
  | .cons _ v t => searchJson v ++ searchFields t

end

/-- `extract_urls`: collect all regex matches, then `list(set(urls))`; the set
removes duplicates and its iteration order is implementation defined, modelled
here by `List.dedup`. -/
def extract_urls (j : Json) : List Str := (searchJson j).dedup

mutual

/-- Specification-side collector: the string values of a document, at any depth,
in mapping values and sequence elements, but never in mapping keys. -/
def stringValues : Json → List Str
  | .null => []
  | .bool _ => []
  | .num _ => []
  | .str s => [s]
  | .arr xs => stringValuesList xs
  | .obj fs => stringValuesFields fs

/-- String values of the elements of an array. -/
def stringValuesList : JsonList → List Str
  | .nil => []
  | .cons h t => stringValues h ++ stringValuesList t

/-- String values of the values of an object. -/
def stringValuesFields : JsonFields → List Str
  | .nil => []
  | .cons _ v t => stringValues v ++ stringValuesFields t

end

/-- Python `needle in hay` on strings: substring containment. -/
def containsSub : Str → Str → Bool
  | hay, needle =>
    if needle.isPrefixOf hay then true
    else
      match hay with
      | [] => false
      | _ :: t => containsSub t needle

/-- Python `s.lower()` (ASCII model). -/
def lowerStr (s : Str) : Str := s.map Char.toLower

/-- The default keyword list of `sort_urls_by_relevance`. -/
def default_keywords : List Str :=
  [ "maps".data, "flights".data, "hotels".data, "booking".data, "price".data,
    "search".data, "showtimes".data ]

/-- The relevance score: `sum(1 for keyword in keywords if keyword in url.lower())`. -/
def relevance_score (keywords : List Str) (url : Str) : Nat :=
  keywords.countP (fun k => containsSub (lowerStr url) k)

/-- One step of filling `url_relevance` (a `defaultdict(list)`): append the url to
the bucket of its score, keeping first-insertion key order like a Python dict. -/
def addToBucket : List (Nat × List Str) → Nat → Str → List (Nat × List Str)
  | [], sc, u => [(sc, [u])]
  | (k, us) :: rest, sc, u =>
    if k = sc then (k, us ++ [u]) :: rest else (k, us) :: addToBucket rest sc u

/-- Reading `url_relevance[sc]`: the bucket of the first matching key (keys are
unique, being a Python dict). -/
def bucketGet : List (Nat × List Str) → Nat → List Str
  | [], _ => []
  | (k, us) :: rest, sc => if k = sc then us else bucketGet rest sc

/-- The filled `url_relevance` dictionary: every url appended to the bucket of
its score, in input order. -/
def urlBuckets (kws : List Str) (urls : List Str) : List (Nat × List Str) :=
  urls.foldl (fun b u => addToBucket b (relevance_score kws u) u) []

/-- `sort_urls_by_relevance`: group the urls by score into `url_relevance`, then
concatenate the buckets for the keys sorted in descending order.  `none` for the
keyword argument selects the default keyword list. -/
def sort_urls_by_relevance (urls : List Str) (keywords : Option (List Str)) : List Str :=
  let kws := match keywords with
             | none => default_keywords
             | some ks => ks
  let sortedKeys := ((urlBuckets kws urls).map Prod.fst).insertionSort (fun a b => b ≤ a)
  sortedKeys.flatMap (fun sc => bucketGet (urlBuckets kws urls) sc)

/-- The fixed name of the chain-of-thought field. -/
def cotKey : Str := "chain_of_thought".data

/-- The fixed name of the tool-executions field. -/
def teKey : Str := "tool_executions".data

/-- The warning printed when the chain-of-thought field is absent. -/
def warnMsg : String := "Warning: chain_of_thought key not found in JSON. Using an empty list."

/-- `extract_chain_of_thought`: on a dict, warn if the key is absent and return
`json_data.get("chain_of_thought", [])`; on any non-dict value the attribute
access `.get` raises (AttributeError), modelled as an error.  The returned pair
is (printed warnings, value). -/
def extract_chain_of_thought (j : Json) : Except String (List String × Json) :=
  match j with
  | .obj fs =>
    if fs.hasKey cotKey then .ok ([], fs.getD cotKey (.arr .nil))
    else .ok ([warnMsg], .arr .nil)
  | _ => .error "AttributeError"

/-- Python iteration `for x in v`: lists yield their elements, dicts their keys,
strings their characters (as one-character strings); other values raise TypeError. -/
def pyIter : Json → Except String (List Json)
  | .arr xs => .ok xs.toList
  | .obj fs => .ok (fs.keys.map Json.str)
  | .str s => .ok (s.map (fun c => Json.str [c]))
  | _ => .error "TypeError"

/-- Whether a JSON value equals a given Python string under Python `==`. -/
def jsonEqStr (needle : Str) : Json → Bool
  | .str s => s == needle
  | _ => false

/-- Python `needle in v` for a string needle: key membership for dicts, element
membership for lists, substring test for strings; other values raise TypeError. -/
def pyContains (needle : Str) : Json → Except String Bool
  | .obj fs => .ok (fs.hasKey needle)
  | .arr xs => .ok (xs.toList.any (jsonEqStr needle))
  | .str s => .ok (containsSub s needle)
  | _ => .error "TypeError"

/-- Python `v[key]` for a string key: dict lookup (KeyError when absent); any
other value raises TypeError. -/
def pyGetItem (j : Json) (key : Str) : Except String Json :=
  match j with
  | .obj fs =>
    match fs.lookup key with
    | some v => .ok v
    | none => .error "KeyError"
  | _ => .error "TypeError"

/-- Python `v.get(key, default)`: only dicts have `.get`; any other value raises
AttributeError. -/
def pyGet (j : Json) (key : Str) (d : Json) : Except String Json :=
  match j with
  | .obj fs => .ok (fs.getD key d)
  | _ => .error "AttributeError"

/-- Body of the accumulation loop of `extract_tool_executions` for one step:
if the step contains the field, append all elements of its value. -/
def stepExecs (acc : List Json) (step : Json) : Except String (List Json) :=
  match pyContains teKey step with
  | .error e => .error e
  | .ok false => .ok acc
  | .ok true =>
    match pyGetItem step teKey with
    | .error e => .error e
    | .ok v =>
      match pyIter v with
      | .error e => .error e
      | .ok items => .ok (acc ++ items)

/-- The accumulation loop of `extract_tool_executions` over the steps. -/
def toolExecLoop : List Json → List Json → Except String (List Json)
  | acc, [] => .ok acc
  | acc, step :: rest =>
    match stepExecs acc step with
    | .error e => .error e
    | .ok acc2 => toolExecLoop acc2 rest

/-- `extract_tool_executions`: iterate over the chain-of-thought steps and append
every element of each step's `tool_executions` field, preserving order. -/
def extract_tool_executions (j : Json) : Except String (List Json) :=
  match extract_chain_of_thought j with
  | .error e => .error e
  | .ok chainRes =>
    match pyIter chainRes.2 with
    | .error e => .error e
    | .ok steps => toolExecLoop [] steps

/-- Hexadecimal digit characters (lowercase), as emitted by json.dumps. -/
def hexDigit (n : Nat) : Char :=
  if n < 10 then Char.ofNat (48 + n) else Char.ofNat (87 + n)

/-- Four-digit hexadecimal rendering of a code unit in a `\u` escape. -/
def hex4 (n : Nat) : Str :=
  [hexDigit (n / 4096 % 16), hexDigit (n / 256 % 16), hexDigit (n / 16 % 16), hexDigit (n % 16)]

/-- How json.dumps (ensure_ascii=True) renders one character inside a string:
the short escapes, `\u00xx` for other control characters, `\uxxxx` for non-ASCII
characters of the basic plane, a surrogate pair for astral characters, and the
character itself otherwise. -/
def escapeChar (c : Char) : Str :=
  if c == '"' then ['\\', '"']
  else if c == '\\' then ['\\', '\\']
  else if c == '\n' then ['\\', 'n']
  else if c == '\t' then ['\\', 't']
  else if c == '\r' then ['\\', 'r']
  else if c.toNat == 8 then ['\\', 'b']
  else if c.toNat == 12 then ['\\', 'f']
  else if c.toNat < 32 ∨ 127 ≤ c.toNat then
    if c.toNat < 65536 then '\\' :: 'u' :: hex4 c.toNat
    else
      ('\\' :: 'u' :: hex4 (55296 + (c.toNat - 65536) / 1024)) ++
      ('\\' :: 'u' :: hex4 (56320 + (c.toNat - 65536) % 1024))
  else [c]

/-- json.dumps escaping of a whole string body. -/
def escapeStr : Str → Str
  | [] => []
  | c :: t => escapeChar c ++ escapeStr t

/-- json.dumps rendering of a string, including the surrounding quotes. -/
def dumpStr (s : Str) : Str := '"' :: (escapeStr s ++ ['"'])

/-- Decimal digits of a natural number; the fuel only bounds the recursion depth
and `natRepr` passes enough of it. -/
def natReprAux : Nat → Nat → Str
  | 0, _ => []
  | fuel + 1, n =>
    if n < 10 then [Char.ofNat (48 + n)]
    else natReprAux fuel (n / 10) ++ [Char.ofNat (48 + n % 10)]

/-- Decimal rendering of a natural number. -/
def natRepr (n : Nat) : Str := natReprAux (n + 1) n

/-- Decimal rendering of an integer, as json.dumps renders Python ints. -/
def intRepr (n : Int) : Str :=
  if n < 0 then '-' :: natRepr (-n).toNat else natRepr n.toNat

mutual

/-- Model of `json.dumps` with its default separators (", " between items and
": " after keys) and default ensure_ascii. -/
def dumps : Json → Str
  | .null => "null".data
  | .bool true => "true".data
  | .bool false => "false".data
  | .num n => intRepr n
  | .str s => dumpStr s
  | .arr .nil => "[]".data
  | .arr (.cons h t) => '[' :: (dumps h ++ dumpsItems t) ++ [']']
  | .obj .nil => [Char.ofNat 123, Char.ofNat 125]
  | .obj (.cons k v t) =>
    Char.ofNat 123 :: (dumpStr k ++ ':' :: ' ' :: dumps v ++ dumpsFields t) ++ [Char.ofNat 125]

/-- Remaining items of a non-empty array, each preceded by ", ". -/
def dumpsItems : JsonList → Str
  | .nil => []
  | .cons h t => ',' :: ' ' :: (dumps h ++ dumpsItems t)

/-- Remaining entries of a non-empty object, each preceded by ", ". -/
def dumpsFields : JsonFields → Str
  | .nil => []
  | .cons k v t => ',' :: ' ' :: (dumpStr k ++ ':' :: ' ' :: dumps v ++ dumpsFields t)

end

/-- The flattened, CSV-ready form of one tool-execution record: the four fixed
cells produced by `flatten_tool_execution`. -/
structure FlatExec where
  tool_name : Json
  method_name : Json
  params : Str
  output : Str

/-- `flatten_tool_execution`: read the four fields with their defaults and
serialize `params` and `output` with json.dumps; a non-dict record makes the
attribute access `.get` raise. -/
def flatten_tool_execution (e : Json) : Except String FlatExec :=
  match e with
  | .obj fs =>
    .ok ⟨fs.getD "tool_name".data (.str []), fs.getD "method_name".data (.str []),
         dumps (fs.getD "params".data (.obj .nil)), dumps (fs.getD "output".data (.arr .nil))⟩
  | _ => .error "AttributeError"

/-- Python truthiness of a JSON value, as tested by `if not json_data`. -/
def jsonFalsy : Json → Bool
  | .null => true
  | .bool b => !b
  | .num n => n == 0
  | .str s => s.isEmpty
  | .arr .nil => true
  | .arr (.cons _ _) => false
  | .obj .nil => true
  | .obj (.cons _ _ _) => false

/-- The combined output structure written to extracted_data.json. -/
structure Report where
  metadata_location : Json
  metadata_time : Json
  metadata_error : Json
  metadata_observation : Json
  chain_of_thought : Json
  tool_executions : List Json
  sorted_urls : List Str

/-- One attempted file write of `main` (the I/O itself is an external
collaborator; only which writes are attempted, with what content, is modelled). -/
inductive WriteOp where
  | jsonOut (r : Report)
  | toolCsv (rows : List FlatExec)
  | urlsCsv (rows : List Str)

/-- The flattening comprehension `[flatten_tool_execution(e) for e in tool_execs]`
(an exception in any element propagates). -/
def flattenAll : List Json → Except String (List FlatExec)
  | [] => .ok []
  | e :: rest =>
    match flatten_tool_execution e with
    | .error er => .error er
    | .ok f =>
      match flattenAll rest with
      | .error er => .error er
      | .ok fs => .ok (f :: fs)

/-- The part of `main` after a successful, truthy load: metadata extraction,
trace extraction, flattening, URL extraction and ranking, report assembly, and
the list of attempted writes (the JSON report always, each CSV only when its
source collection is non-empty). -/
def main_body (j : Json) : Except String (Report × List WriteOp) :=
  match pyGet j "location".data (.str []) with
  | .error e => .error e
  | .ok loc =>
    match pyGet j "time".data (.str []) with
    | .error e => .error e
    | .ok tim =>
      match pyGet j "error".data (.str []) with
      | .error e => .error e
      | .ok err =>
        match pyGet j "observation".data (.str []) with
        | .error e => .error e
        | .ok obs =>
          match extract_chain_of_thought j with
          | .error e => .error e
          | .ok chainRes =>
            match extract_tool_executions j with
            | .error e => .error e
            | .ok texecs =>
              match flattenAll texecs with
              | .error e => .error e
              | .ok flat =>
                .ok (⟨loc, tim, err, obs, chainRes.2, texecs,
                      sort_urls_by_relevance (extract_urls j) none⟩,
                  [WriteOp.jsonOut ⟨loc, tim, err, obs, chainRes.2, texecs,
                      sort_urls_by_relevance (extract_urls j) none⟩]
                  ++ (if flat.isEmpty then [] else [WriteOp.toolCsv flat])
                  ++ (if (sort_urls_by_relevance (extract_urls j) none).isEmpty then []
                      else [WriteOp.urlsCsv (sort_urls_by_relevance (extract_urls j) none)]))

/-- `main` on the result of `load_json` (`none` models a load failure): the
falsiness check `if not json_data: return` causes the early return with no
writes, otherwise the body runs.  The overall result is `.ok (none, [])` for an
early orderly return, `.ok (some report, writes)` for a completed run, and
`.error` when the body raises an uncaught exception. -/
def main_run (loaded : Option Json) : Except String (Option Report × List WriteOp) :=
  match loaded with
  | none => .ok (none, [])
  | some j =>
    if jsonFalsy j then .ok (none, [])
    else
      match main_body j with
      | .error e => .error e
      | .ok (rep, writes) => .ok (some rep, writes)

/-- The end-to-end input document of the specification's final testable property. -/
def c5_doc : Json :=
  Json.obj (.cons "location".data (.str "NYC".data)
    (.cons cotKey (.arr (.cons
      (Json.obj (.cons teKey (.arr (.cons
        (Json.obj (.cons "tool_name".data (.str "flights".data)
          (.cons "params".data (.obj .nil)
            (.cons "output".data (.arr (.cons (.num 1) .nil)) .nil))))
        .nil)) .nil))
      .nil))
    (.cons "notes".data (.str "see https://flights.example.com/search?x=1".data) .nil)))

/-- Decimal digit test. -/
def isDigitCh (c : Char) : Bool := 48 ≤ c.toNat && c.toNat ≤ 57

/-- Value of a run of decimal digits. -/
def digitsVal (s : Str) : Nat := s.foldl (fun a c => 10 * a + (c.toNat - 48)) 0

/-- Parse a maximal non-empty run of decimal digits. -/
def parseNat (input : Str) : Option (Nat × Str) :=
  let run := input.takeWhile isDigitCh
  if run.isEmpty then none else some (digitsVal run, input.dropWhile isDigitCh)

/-- Value of one hexadecimal digit (0 for other characters; json.loads would
reject those, and they never arise when reading back json.dumps output). -/
def hexVal (c : Char) : Nat :=
  if 48 ≤ c.toNat && c.toNat ≤ 57 then c.toNat - 48
  else if 97 ≤ c.toNat && c.toNat ≤ 102 then c.toNat - 87
  else if 65 ≤ c.toNat && c.toNat ≤ 70 then c.toNat - 55
  else 0

/-- The single-character JSON escapes accepted after a backslash. -/
def unescape (c : Char) : Option Char :=
  match c.toNat with
  | 34 => some '"'
  | 92 => some '\\'
  | 47 => some '/'
  | 98 => some (Char.ofNat 8)
  | 102 => some (Char.ofNat 12)
  | 110 => some '\n'
  | 114 => some '\r'
  | 116 => some '\t'
  | _ => none

/-- Prepend a character to the string part of a parser result. -/
def consMap (c : Char) : Option (Str × Str) → Option (Str × Str)
  | some (s, r) => some (c :: s, r)
  | none => none

/-- Value of four hexadecimal digits. -/
def hexQuad (a b c d : Char) : Nat :=
  4096 * hexVal a + 256 * hexVal b + 16 * hexVal c + hexVal d

/-- Decode the low half of a surrogate pair: expects a second `\u` escape whose
value lies in the low-surrogate range, and recombines the astral scalar value. -/
def decodeSurr (n : Nat) : Str → Option (Char × Str)
  | bs :: u2 :: e2 :: f2 :: g2 :: h2 :: rest3 =>
    if bs == '\\' && u2 == 'u' then
      if 56320 ≤ hexQuad e2 f2 g2 h2 ∧ hexQuad e2 f2 g2 h2 ≤ 57343 then
        some (Char.ofNat (65536 + 1024 * (n - 55296) + (hexQuad e2 f2 g2 h2 - 56320)), rest3)
      else none
    else none
  | _ => none

/-- Decode one escape sequence (the part after the backslash): a `\u` escape,
possibly a surrogate pair for astral characters (a lone surrogate escape, which
Lean characters cannot denote, is rejected), or a single-character escape. -/
def decodeEsc : Str → Option (Char × Str)
  | [] => none
  | e :: rest =>
    if e == 'u' then
      match rest with
      | a :: b :: c2 :: d :: rest2 =>
        if 55296 ≤ hexQuad a b c2 d ∧ hexQuad a b c2 d ≤ 56319 then
          decodeSurr (hexQuad a b c2 d) rest2
        else some (Char.ofNat (hexQuad a b c2 d), rest2)
      | _ => none
    else
      match unescape e with
      | some c => some (c, rest)
      | none => none

/-- Parse a JSON string body up to its closing quote, undoing the escapes of
json.dumps.  The fuel bounds the number of decoded characters; the wrapper
`parseStr` passes the input length, which always suffices. -/
def parseStringBody : Nat → Str → Option (Str × Str)
  | 0, _ => none
  | _ + 1, [] => none
  | fuel + 1, c :: rest =>
    if c == '"' then some ([], rest)
    else if c == '\\' then
      match decodeEsc rest with
      | some (c2, r2) => consMap c2 (parseStringBody fuel r2)
      | none => none
    else consMap c (parseStringBody fuel rest)

/-- Parse a JSON string body, fuelled by the input length. -/
def parseStr (w : Str) : Option (Str × Str) := parseStringBody (w.length + 1) w

/-- Expect three literal characters and produce a fixed value. -/
def pLit3 (x y z : Char) (v : Json) : Str → Option (Json × Str)
  | a :: b :: c :: r => if a == x && b == y && c == z then some (v, r) else none
  | _ => none

/-- Expect four literal characters and produce a fixed value. -/
def pLit4 (x y z u : Char) (v : Json) : Str → Option (Json × Str)
  | a :: b :: c :: d :: r =>
    if a == x && b == y && c == z && d == u then some (v, r) else none
  | _ => none

/-- Parse the body of a string literal into a JSON string. -/
def pStr (w : Str) : Option (Json × Str) :=
  match parseStr w with
  | some (s, r) => some (Json.str s, r)
  | none => none

/-- Parse the digits after a minus sign into a negative number. -/
def pNeg (w : Str) : Option (Json × Str) :=
  match parseNat w with
  | some (n, r) => some (Json.num (-(n : Int)), r)
  | none => none

/-- Parse a non-negative number. -/
def pNum (w : Str) : Option (Json × Str) :=
  match parseNat w with
  | some (n, r) => some (Json.num (n : Int), r)
  | none => none

mutual

/-- Parse one JSON value from the grammar json.dumps emits (the model of
json.loads used for the round-trip property).  The fuel bounds the recursion;
`loads` passes a bound derived from the input length, which always suffices. -/
def parseVal : Nat → Str → Option (Json × Str)
  | 0, _ => none
  | _ + 1, [] => none
  | fuel + 1, c :: rest =>
    if c == 'n' then pLit3 'u' 'l' 'l' Json.null rest
    else if c == 't' then pLit3 'r' 'u' 'e' (Json.bool true) rest
    else if c == 'f' then pLit4 'a' 'l' 's' 'e' (Json.bool false) rest
    else if c == '"' then pStr rest
    else if c == '-' then pNeg rest
    else if isDigitCh c then pNum (c :: rest)
    else if c == '[' then parseArrBody fuel rest
    else if c.toNat == 123 then parseObjBody fuel rest
    else none

/-- Parse what follows an opening bracket: an empty array or its items. -/
def parseArrBody : Nat → Str → Option (Json × Str)
  | 0, _ => none
  | _ + 1, [] => none
  | fuel + 1, r0 :: r1 =>
    if r0 == ']' then some (Json.arr .nil, r1)
    else
      match parseItems fuel (r0 :: r1) with
      | some (xs, r) => some (Json.arr xs, r)
      | none => none

/-- Parse the comma-separated items of a non-empty array, consuming the closing
bracket. -/
def parseItems : Nat → Str → Option (JsonList × Str)
  | 0, _ => none
  | fuel + 1, input =>
    match parseVal fuel input with
    | none => none
    | some (v, r) =>
      match r with
      | ']' :: r2 => some (JsonList.cons v .nil, r2)
      | ',' :: ' ' :: r2 =>
        match parseItems fuel r2 with
        | some (xs, r3) => some (JsonList.cons v xs, r3)
        | none => none
      | _ => none

/-- Parse what follows an opening brace: an empty object or its entries. -/
def parseObjBody : Nat → Str → Option (Json × Str)
  | 0, _ => none
  | _ + 1, [] => none
  | fuel + 1, r0 :: r1 =>
    if r0.toNat == 125 then some (Json.obj .nil, r1)
    else
      match parseFields fuel (r0 :: r1) with
      | some (fs, r) => some (Json.obj fs, r)
      | none => none

/-- Parse the comma-separated entries of a non-empty object, consuming the
closing brace. -/
def parseFields : Nat → Str → Option (JsonFields × Str)
  | 0, _ => none
  | _ + 1, [] => none
  | fuel + 1, c :: kr =>
    if c == '"' then
      match parseStr kr with
      | some (k, r) =>
        match r with
        | ':' :: ' ' :: r2 =>
          match parseVal fuel r2 with
          | some (v, r3) => parseFieldsTail fuel k v r3
          | none => none
        | _ => none
      | none => none
    else none

/-- After one key-value pair: either the closing brace or a comma followed by
the remaining entries. -/
def parseFieldsTail : Nat → Str → Json → Str → Option (JsonFields × Str)
  | 0, _, _, _ => none
  | _ + 1, _, _, [] => none
  | fuel + 1, k, v, r3h :: r3t =>
    if r3h.toNat == 125 then some (JsonFields.cons k v .nil, r3t)
    else if r3h == ',' then pftComma fuel k v r3t
    else none

/-- After a comma: the separating space and the remaining entries. -/
def pftComma : Nat → Str → Json → Str → Option (JsonFields × Str)
  | fuel + 1, k, v, ' ' :: r4 =>
    (match parseFields fuel r4 with
     | some (fs, r5) => some (JsonFields.cons k v fs, r5)
     | none => none)
  | _, _, _, _ => none

end

/-- Model of `json.loads` on the output grammar of json.dumps: parse one value
and require that the whole input is consumed.  The fuel bound is an artifact of
the shallow embedding; twice the input length plus one always suffices. -/
def loads (s : Str) : Option Json :=
  match parseVal (2 * s.length + 1) s with
  | some (v, []) => some v
  | _ => none

mutual

/-- Fuel needed by `parseVal` to read back a dumped value. -/
def costJ : Json → Nat
  | .null => 1
  | .bool _ => 1
  | .num _ => 1
  | .str _ => 1
  | .arr .nil => 2
  | .arr (.cons h t) => 2 + costL (.cons h t)
  | .obj .nil => 2
  | .obj (.cons k v t) => 2 + costF (.cons k v t)

/-- Fuel needed by `parseItems` for the dumped items of a non-empty array. -/
def costL : JsonList → Nat
  | .nil => 0
  | .cons h t => 1 + costJ h + costL t

/-- Fuel needed by `parseFields` for the dumped entries of a non-empty object. -/
def costF : JsonFields → Nat
  | .nil => 0
  | .cons _ v t => 3 + costJ v + costF t

end

/-- Records contributed by one step in the spec-side reading: the elements of
its tool_executions field when present (and a sequence), nothing otherwise. -/
def stepRecords (step : Json) : List Json :=
  match step with
  | .obj fs =>
    match fs.lookup teKey with
    | some (.arr xs) => xs.toList
    | _ => []
  | _ => []

/-- Spec-side flat concatenation of every record of every step, in step order
then within-step order. -/
def concatToolExecs (steps : List Json) : List Json := steps.flatMap stepRecords

/-- A step of the shape C7 quantifies over: a mapping whose tool_executions
field, where present, is a sequence. -/
def stepWF : Json → Bool
  | .obj fs =>
    match fs.lookup teKey with
    | some (.arr _) => true
    | some _ => false
    | none => true
  | _ => false

/-- Head test that protects number parsing from swallowing the remainder. -/
def noDigitHead : Str → Bool
  | [] => true
  | c :: _ => !isDigitCh c

/-- Every successful match attempt produces one of the two literal prefixes
followed by a non-empty run of non-whitespace characters. -/
theorem tryMatch_shape {input m rem : Str} (h : tryMatch input = some (m, rem)) :
    ∃ t, (m = httpPat ++ t ∨ m = httpsPat ++ t) ∧ t ≠ [] ∧ ∀ c ∈ t, isSpace c = false := by
  unfold tryMatch at h
  split at h
  · split at h
    · exact absurd h (by simp)
    · rename_i hrun
      obtain ⟨hm, -⟩ := Prod.mk.injEq .. ▸ Option.some.injEq .. ▸ h
      refine ⟨(input.drop 8).takeWhile (fun c => !isSpace c), Or.inr hm.symm, ?_, ?_⟩
      · simpa [List.isEmpty_iff] using hrun
      · intro c hc
        simpa using List.mem_takeWhile_imp hc
  · split at h
    · split at h
      · exact absurd h (by simp)
      · rename_i hrun
        obtain ⟨hm, -⟩ := Prod.mk.injEq .. ▸ Option.some.injEq .. ▸ h
        refine ⟨(input.drop 7).takeWhile (fun c => !isSpace c), Or.inl hm.symm, ?_, ?_⟩
        · simpa [List.isEmpty_iff] using hrun
        · intro c hc
          simpa using List.mem_takeWhile_imp hc
    · exact absurd h (by simp)

/-- Every string produced by the scanning loop has the URL shape. -/
theorem findallAux_shape :
    ∀ (fuel : Nat) (input m : Str), m ∈ findallAux fuel input →
      ∃ t, (m = httpPat ++ t ∨ m = httpsPat ++ t) ∧ t ≠ [] ∧ ∀ c ∈ t, isSpace c = false := by
  intro fuel
  induction fuel with
  | zero => intro input m h; simp [findallAux] at h
  | succ n ih =>
    intro input m h
    cases input with
    | nil => simp [findallAux] at h
    | cons c rest =>
      rw [findallAux] at h
      cases htm : tryMatch (c :: rest) with
      | none => rw [htm] at h; exact ih rest m h
      | some pr =>
        obtain ⟨m', rem⟩ := pr
        rw [htm] at h
        rcases List.mem_cons.mp h with hm | hm
        · exact hm ▸ tryMatch_shape htm
        · exact ih rem m hm

/-- Every regex match has the URL shape. -/
theorem findall_shape {s m : Str} (h : m ∈ findall s) :
    ∃ t, (m = httpPat ++ t ∨ m = httpsPat ++ t) ∧ t ≠ [] ∧ ∀ c ∈ t, isSpace c = false :=
  findallAux_shape s.length s m h

mutual

/-- The traversal of `extract_urls` collects exactly the matches of the string
values, document by document. -/
theorem searchJson_eq : ∀ j : Json, searchJson j = (stringValues j).flatMap findall
  | .null => rfl
  | .bool _ => rfl
  | .num _ => rfl
  | .str s => by simp [searchJson, stringValues]
  | .arr xs => by rw [searchJson, stringValues, searchList_eq xs]
  | .obj fs => by rw [searchJson, stringValues, searchFields_eq fs]

/-- List version of `searchJson_eq`. -/
theorem searchList_eq : ∀ xs : JsonList, searchList xs = (stringValuesList xs).flatMap findall
  | .nil => rfl
  | .cons h t => by
    rw [searchList, stringValuesList, List.flatMap_append, searchJson_eq h, searchList_eq t]

/-- Object version of `searchJson_eq`. -/
theorem searchFields_eq :
    ∀ fs : JsonFields, searchFields fs = (stringValuesFields fs).flatMap findall
  | .nil => rfl
  | .cons _ v t => by
    rw [searchFields, stringValuesFields, List.flatMap_append, searchJson_eq v,
      searchFields_eq t]

end

/-- Membership in `extract_urls` is membership in the matches of some string value. -/
theorem mem_extract_urls {j : Json} {u : Str} :
    u ∈ extract_urls j ↔ ∃ s ∈ stringValues j, u ∈ findall s := by
  rw [extract_urls, List.mem_dedup, searchJson_eq, List.mem_flatMap]

/-- C2: for every JSON document, `extract_urls` returns a duplicate-free
collection whose every element begins with `http://` or `https://` — indeed is
one of those prefixes followed by a non-empty maximal run of non-whitespace
characters — and whose members are exactly the pattern matches found in the
string values of the document (mapping values and sequence elements at any
depth, never mapping keys, a single string contributing all of its matches);
when no string value matches, the result is the empty collection, not an error. -/
theorem claim_c2_extract_urls (j : Json) :
    (extract_urls j).Nodup
    ∧ (∀ u, u ∈ extract_urls j → httpPat <+: u ∨ httpsPat <+: u)
    ∧ (∀ u, u ∈ extract_urls j →
        ∃ t, (u = httpPat ++ t ∨ u = httpsPat ++ t) ∧ t ≠ [] ∧ ∀ c ∈ t, isSpace c = false)
    ∧ (∀ u, u ∈ extract_urls j ↔ ∃ s ∈ stringValues j, u ∈ findall s)
    ∧ ((∀ s ∈ stringValues j, findall s = []) → extract_urls j = []) := by
  have hshape : ∀ u, u ∈ extract_urls j →
      ∃ t, (u = httpPat ++ t ∨ u = httpsPat ++ t) ∧ t ≠ [] ∧ ∀ c ∈ t, isSpace c = false := by
    intro u hu
    obtain ⟨s, -, hm⟩ := mem_extract_urls.mp hu
    exact findall_shape hm
  refine ⟨List.nodup_dedup _, ?_, hshape, fun u => mem_extract_urls, ?_⟩
  · intro u hu
    obtain ⟨t, ht, -, -⟩ := hshape u hu
    rcases ht with ht | ht
    · exact Or.inl ⟨t, ht.symm⟩
    · exact Or.inr ⟨t, ht.symm⟩
  · intro hall
    rw [List.eq_nil_iff_forall_not_mem]
    intro u hu
    obtain ⟨s, hs, hm⟩ := mem_extract_urls.mp hu
    rw [hall s hs] at hm
    exact absurd hm (List.not_mem_nil u)

/-- Witness for C2: the shape property applied at a concrete document and match. -/
theorem claim_c2_extract_urls_witness :
    ∃ t, ("http://x".data = httpPat ++ t ∨ "http://x".data = httpsPat ++ t)
      ∧ t ≠ [] ∧ ∀ c ∈ t, isSpace c = false :=
  (claim_c2_extract_urls (Json.str "see http://x".data)).2.2.1 "http://x".data (by decide)

/-- Reading a bucket after one insertion into the score dictionary. -/
theorem bucketGet_addToBucket (b : List (Nat × List Str)) (sc : Nat) (u : Str) (k : Nat) :
    bucketGet (addToBucket b sc u) k
      = if k = sc then bucketGet b k ++ [u] else bucketGet b k := by
  induction b with
  | nil =>
    simp only [addToBucket, bucketGet]
    by_cases h : sc = k
    · subst h; simp
    · have h' : ¬k = sc := fun hh => h hh.symm
      simp [h, h']
  | cons p rest ih =>
    obtain ⟨k0, us⟩ := p
    simp only [addToBucket]
    by_cases h0 : k0 = sc
    · subst h0
      simp only [if_pos rfl, bucketGet]
      by_cases h1 : k0 = k
      · subst h1; simp
      · have h1' : ¬k = k0 := fun hh => h1 hh.symm
        simp [h1, h1']
    · rw [if_neg h0]
      by_cases h1 : k0 = k
      · subst h1
        have h0' : ¬k0 = sc := h0
        simp [bucketGet, h0']
      · simp [bucketGet, h1, ih]

/-- Keys after one insertion: unchanged when the score is present, appended
otherwise (first-insertion order, like a Python dict). -/
theorem keys_addToBucket (b : List (Nat × List Str)) (sc : Nat) (u : Str) :
    (addToBucket b sc u).map Prod.fst
      = if sc ∈ b.map Prod.fst then b.map Prod.fst else b.map Prod.fst ++ [sc] := by
  induction b with
  | nil => simp [addToBucket]
  | cons p rest ih =>
    obtain ⟨k0, us⟩ := p
    by_cases h0 : k0 = sc
    · subst h0; simp [addToBucket]
    · simp only [addToBucket, if_neg h0, List.map_cons, List.mem_cons]
      rw [ih]
      have h0' : ¬sc = k0 := fun hh => h0 hh.symm
      by_cases hm : sc ∈ rest.map Prod.fst
      · simp [hm, h0']
      · simp [hm, h0']

/-- Key membership after one insertion. -/
theorem mem_keys_addToBucket (b : List (Nat × List Str)) (sc : Nat) (u : Str) (k : Nat) :
    k ∈ (addToBucket b sc u).map Prod.fst ↔ k ∈ b.map Prod.fst ∨ k = sc := by
  rw [keys_addToBucket]
  by_cases h : sc ∈ b.map Prod.fst
  · rw [if_pos h]
    exact ⟨Or.inl, fun hk => hk.elim id (fun he => he ▸ h)⟩
  · rw [if_neg h]
    simp

/-- Key distinctness is preserved by insertion. -/
theorem nodup_keys_addToBucket {b : List (Nat × List Str)} (h : (b.map Prod.fst).Nodup)
    (sc : Nat) (u : Str) : ((addToBucket b sc u).map Prod.fst).Nodup := by
  rw [keys_addToBucket]
  by_cases hm : sc ∈ b.map Prod.fst
  · rwa [if_pos hm]
  · rw [if_neg hm]
    simp [List.nodup_append, h, hm]

/-- Reading a bucket of the filled dictionary, starting from any partial state. -/
theorem bucketGet_foldl (kws : List Str) :
    ∀ (urls : List Str) (b : List (Nat × List Str)) (k : Nat),
      bucketGet (urls.foldl (fun b u => addToBucket b (relevance_score kws u) u) b) k
        = bucketGet b k ++ urls.filter (fun u => relevance_score kws u == k) := by
  intro urls
  induction urls with
  | nil => intro b k; simp
  | cons u urls ih =>
    intro b k
    simp only [List.foldl_cons, List.filter_cons]
    rw [ih, bucketGet_addToBucket]
    by_cases h : relevance_score kws u = k
    · rw [if_pos h.symm]
      simp [h]
    · rw [if_neg (fun hh : k = relevance_score kws u => h hh.symm)]
      simp [h]

/-- The bucket of each score holds exactly the urls with that score, in input order. -/
theorem bucketGet_urlBuckets (kws : List Str) (urls : List Str) (k : Nat) :
    bucketGet (urlBuckets kws urls) k = urls.filter (fun u => relevance_score kws u == k) := by
  rw [urlBuckets, bucketGet_foldl]
  rfl

/-- Key membership of the filled dictionary, starting from any partial state. -/
theorem mem_keys_foldl (kws : List Str) :
    ∀ (urls : List Str) (b : List (Nat × List Str)) (k : Nat),
      (k ∈ ((urls.foldl (fun b u => addToBucket b (relevance_score kws u) u) b).map Prod.fst)
        ↔ k ∈ b.map Prod.fst ∨ k ∈ urls.map (relevance_score kws)) := by
  intro urls
  induction urls with
  | nil => intro b k; simp
  | cons u urls ih =>
    intro b k
    simp only [List.foldl_cons, List.map_cons, List.mem_cons]
    rw [ih, mem_keys_addToBucket]
    tauto

/-- The keys of the filled dictionary are exactly the scores occurring among the urls. -/
theorem mem_keys_urlBuckets (kws : List Str) (urls : List Str) (k : Nat) :
    k ∈ (urlBuckets kws urls).map Prod.fst ↔ k ∈ urls.map (relevance_score kws) := by
  rw [urlBuckets, mem_keys_foldl]
  simp

/-- The keys of the filled dictionary are distinct. -/
theorem nodup_keys_urlBuckets (kws : List Str) (urls : List Str) :
    ((urlBuckets kws urls).map Prod.fst).Nodup := by
  rw [urlBuckets]
  have : ∀ (urls : List Str) (b : List (Nat × List Str)), (b.map Prod.fst).Nodup →
      (((urls.foldl (fun b u => addToBucket b (relevance_score kws u) u) b).map Prod.fst)).Nodup := by
    intro urls
    induction urls with
    | nil => intro b h; simpa using h
    | cons u urls ih =>
      intro b h
      exact ih _ (nodup_keys_addToBucket h _ _)
  exact this urls [] (by simp)

/-- Filtering a score bucket by its own score changes nothing. -/
theorem filter_score_self (kws urls : List Str) (k : Nat) :
    (urls.filter (fun u => relevance_score kws u == k)).filter
        (fun u => relevance_score kws u == k)
      = urls.filter (fun u => relevance_score kws u == k) := by
  rw [List.filter_eq_self]
  intro a ha
  exact (List.mem_filter.mp ha).2

/-- Filtering a score bucket by a different score gives nothing. -/
theorem filter_score_other (kws urls : List Str) {sc k : Nat} (h : ¬k = sc) :
    (urls.filter (fun u => relevance_score kws u == sc)).filter
        (fun u => relevance_score kws u == k) = [] := by
  rw [List.filter_eq_nil_iff]
  intro a ha
  have h2 : relevance_score kws a = sc := by simpa using (List.mem_filter.mp ha).2
  have h' : ¬sc = k := fun hh => h hh.symm
  simp [h2, h']

/-- Filtering the concatenation of the buckets of distinct scores by one score. -/
theorem filter_flatMap_buckets (kws urls : List Str) :
    ∀ ks : List Nat, ks.Nodup → ∀ k : Nat,
      (ks.flatMap fun sc => urls.filter (fun u => relevance_score kws u == sc)).filter
          (fun u => relevance_score kws u == k)
        = if k ∈ ks then urls.filter (fun u => relevance_score kws u == k) else [] := by
  intro ks
  induction ks with
  | nil => intro _ k; simp
  | cons sc ks ih =>
    intro hnd k
    rw [List.flatMap_cons, List.filter_append, ih (List.nodup_cons.mp hnd).2]
    by_cases h : k = sc
    · subst h
      have hnot : k ∉ ks := (List.nodup_cons.mp hnd).1
      simp [hnot, filter_score_self]
    · rw [filter_score_other kws urls h]
      by_cases hk : k ∈ ks
      · simp [hk, h]
      · simp [hk, h]

/-- Concatenating buckets along descending scores yields a list whose scores
never increase. -/
theorem pairwise_flatMap_buckets (kws urls : List Str) :
    ∀ ks : List Nat, List.Sorted (fun a b => b ≤ a) ks →
      List.Pairwise (fun a b => relevance_score kws b ≤ relevance_score kws a)
        (ks.flatMap fun sc => urls.filter (fun u => relevance_score kws u == sc)) := by
  intro ks
  induction ks with
  | nil => intro _; simp
  | cons sc ks ih =>
    intro hs
    obtain ⟨hhead, htail⟩ := List.sorted_cons.mp hs
    rw [List.flatMap_cons, List.pairwise_append]
    refine ⟨?_, ih htail, ?_⟩
    · apply List.pairwise_of_forall_mem_list
      intro a ha b hb
      have hra : relevance_score kws a = sc := by simpa using (List.mem_filter.mp ha).2
      have hrb : relevance_score kws b = sc := by simpa using (List.mem_filter.mp hb).2
      rw [hra, hrb]
    · intro a ha b hb
      have hra : relevance_score kws a = sc := by simpa using (List.mem_filter.mp ha).2
      obtain ⟨sc', hsc', hb'⟩ := List.mem_flatMap.mp hb
      have hrb : relevance_score kws b = sc' := by simpa using (List.mem_filter.mp hb').2
      rw [hra, hrb]
      exact hhead sc' hsc'

/-- Concatenating one bucket per occurring score permutes the input urls. -/
theorem flatMap_buckets_perm (kws : List Str) :
    ∀ (ks : List Nat) (urls : List Str), ks.Nodup →
      (∀ u ∈ urls, relevance_score kws u ∈ ks) →
      (ks.flatMap fun sc => urls.filter (fun u => relevance_score kws u == sc)).Perm urls := by
  intro ks
  induction ks with
  | nil =>
    intro urls _ hcov
    have hnil : urls = [] :=
      List.eq_nil_iff_forall_not_mem.mpr (fun u hu => by simpa using hcov u hu)
    simp [hnil]
  | cons sc ks ih =>
    intro urls hnd hcov
    rw [List.flatMap_cons]
    have hrw : ks.flatMap (fun sc' => urls.filter (fun u => relevance_score kws u == sc'))
        = ks.flatMap (fun sc' => (urls.filter (fun u => !(relevance_score kws u == sc))).filter
            (fun u => relevance_score kws u == sc')) := by
      unfold List.flatMap
      congr 1
      apply List.map_congr_left
      intro sc' hsc'
      have hne : ¬sc' = sc := fun he => (List.nodup_cons.mp hnd).1 (he ▸ hsc')
      rw [List.filter_filter]
      apply List.filter_congr
      intro a _
      by_cases hsa : relevance_score kws a = sc'
      · simp [hsa, fun hh : sc' = sc => hne hh]
      · simp [hsa]
    rw [hrw]
    have hperm := ih (urls.filter (fun u => !(relevance_score kws u == sc)))
      (List.nodup_cons.mp hnd).2
      (by
        intro u hu
        obtain ⟨hu1, hu2⟩ := List.mem_filter.mp hu
        have := hcov u hu1
        rcases List.mem_cons.mp this with he | he
        · exact absurd he (by simpa using hu2)
        · exact he)
    exact (List.Perm.append_left _ hperm).trans (List.filter_append_perm _ urls)

/-- The ranked output (for an explicit keyword list, after resolving the bucket
reads) permutes the input urls. -/
theorem sort_core_perm (kws urls : List Str) :
    (sort_urls_by_relevance urls (some kws)).Perm urls := by
  have hbg : (fun sc => bucketGet (urlBuckets kws urls) sc)
      = fun sc => urls.filter (fun u => relevance_score kws u == sc) :=
    funext (bucketGet_urlBuckets kws urls)
  rw [sort_urls_by_relevance, hbg]
  apply flatMap_buckets_perm
  · exact ((List.perm_insertionSort _ _).nodup_iff).mpr (nodup_keys_urlBuckets kws urls)
  · intro u hu
    rw [(List.perm_insertionSort _ _).mem_iff, mem_keys_urlBuckets]
    exact List.mem_map_of_mem _ hu

/-- C3: the ranker scores each URL by the number of keywords that occur
case-insensitively as substrings of it (each keyword contributing at most 1
regardless of how many times it appears in the URL); in the ranked output every
URL with a higher score appears strictly before every URL with a lower score
(scores never increase along the output), URLs of equal score keep their input
order (the sub-list of each score is the input sub-list of that score), and
omitting the keyword argument uses the default keyword list maps, flights,
hotels, booking, price, search, showtimes. -/
theorem claim_c3_sort_urls (urls kws : List Str) :
    (∀ u, relevance_score kws u
        = (kws.filter (fun k => containsSub (lowerStr u) k)).length)
    ∧ List.Pairwise (fun a b => relevance_score kws b ≤ relevance_score kws a)
        (sort_urls_by_relevance urls (some kws))
    ∧ (∀ k, (sort_urls_by_relevance urls (some kws)).filter
          (fun u => relevance_score kws u == k)
        = urls.filter (fun u => relevance_score kws u == k))
    ∧ sort_urls_by_relevance urls none = sort_urls_by_relevance urls (some default_keywords) := by
  have hbg : (fun sc => bucketGet (urlBuckets kws urls) sc)
      = fun sc => urls.filter (fun u => relevance_score kws u == sc) :=
    funext (bucketGet_urlBuckets kws urls)
  have hnd : (((urlBuckets kws urls).map Prod.fst).insertionSort (fun a b => b ≤ a)).Nodup :=
    ((List.perm_insertionSort _ _).nodup_iff).mpr (nodup_keys_urlBuckets kws urls)
  refine ⟨fun u => List.countP_eq_length_filter _ _, ?_, ?_, rfl⟩
  · rw [sort_urls_by_relevance, hbg]
    exact pairwise_flatMap_buckets kws urls _ (List.sorted_insertionSort _ _)
  · intro k
    rw [sort_urls_by_relevance, hbg, filter_flatMap_buckets kws urls _ hnd k]
    by_cases hk : k ∈ ((urlBuckets kws urls).map Prod.fst).insertionSort (fun a b => b ≤ a)
    · rw [if_pos hk]
    · rw [if_neg hk]
      symm
      rw [List.filter_eq_nil_iff]
      intro a ha hcontra
      apply hk
      rw [(List.perm_insertionSort _ _).mem_iff, mem_keys_urlBuckets]
      have hsc : relevance_score kws a = k := by simpa using hcontra
      exact hsc ▸ List.mem_map_of_mem _ ha

/-- Witness for C3: the score characterisation applied at the end-to-end URL. -/
theorem claim_c3_sort_urls_witness :
    relevance_score default_keywords "https://flights.example.com/search?x=1".data
      = ((default_keywords.filter
          (fun k => containsSub (lowerStr "https://flights.example.com/search?x=1".data) k)).length) :=
  (claim_c3_sort_urls [] default_keywords).1 _

/-- C9: ranking returns a permutation of its input: every url occurs in the
output with its input multiplicity, nothing is added or dropped. -/
theorem claim_c9_sort_urls_perm (urls : List Str) (keywords : Option (List Str)) :
    (sort_urls_by_relevance urls keywords).Perm urls := by
  cases keywords with
  | none => exact sort_core_perm default_keywords urls
  | some kws => exact sort_core_perm kws urls

/-- Witness for C9 at a concrete url list. -/
theorem claim_c9_sort_urls_perm_witness :
    (sort_urls_by_relevance ["http://a".data, "http://maps.b".data] none).Perm
      ["http://a".data, "http://maps.b".data] :=
  claim_c9_sort_urls_perm ["http://a".data, "http://maps.b".data] none

/-- Ranking permutes its input (helper form usable by other developments). -/
theorem sort_urls_perm (urls : List Str) (keywords : Option (List Str)) :
    (sort_urls_by_relevance urls keywords).Perm urls := by
  cases keywords with
  | none => exact sort_core_perm default_keywords urls
  | some kws => exact sort_core_perm kws urls

/-- The ranked output is empty exactly when no urls were given. -/
theorem sort_urls_eq_nil_iff (urls : List Str) (keywords : Option (List Str)) :
    sort_urls_by_relevance urls keywords = [] ↔ urls = [] := by
  constructor
  · intro h
    exact ((h ▸ sort_urls_perm urls keywords).symm).eq_nil
  · intro h
    subst h
    exact (sort_urls_perm [] keywords).eq_nil

/-- C4 counterexample: the empty-array document is valid JSON whose top level
lacks a chain_of_thought field, yet `extract_chain_of_thought` raises
(AttributeError on the `.get` attribute access) instead of warning and
returning an empty sequence, refuting "the operation does not raise for any
valid JSON document". -/
theorem claim_c4_counterexample :
    extract_chain_of_thought (Json.arr .nil) = .error "AttributeError"
    ∧ ∀ r, extract_chain_of_thought (Json.arr .nil) ≠ .ok r := by
  refine ⟨rfl, fun r h => ?_⟩
  simp [extract_chain_of_thought] at h

/-- C4 (amended): for every valid JSON document whose top level is a mapping
lacking the chain_of_thought field, `extract_chain_of_thought` emits the
warning and returns an empty sequence without raising; for valid documents with
a non-mapping top level the operation raises instead. -/
theorem claim_c4_extract_chain_of_thought (fs : JsonFields)
    (h : fs.hasKey cotKey = false) :
    extract_chain_of_thought (Json.obj fs) = .ok ([warnMsg], Json.arr .nil) := by
  simp [extract_chain_of_thought, h]

/-- Witness for the amended C4 at the empty mapping. -/
theorem claim_c4_extract_chain_of_thought_witness :
    extract_chain_of_thought (Json.obj .nil) = .ok ([warnMsg], Json.arr .nil) :=
  claim_c4_extract_chain_of_thought .nil (by decide)

/-- Inversion of `main_run` for a loaded, truthy document. -/
theorem main_run_inv {j : Json} {res : Option Report} {ws : List WriteOp}
    (hf : jsonFalsy j = false)
    (h : main_run (some j) = .ok (res, ws)) :
    ∃ rep, res = some rep ∧ main_body j = .ok (rep, ws) := by
  rw [main_run] at h
  rw [if_neg (by simp [hf])] at h
  cases hb : main_body j with
  | error e => rw [hb] at h; exact Except.noConfusion h
  | ok pr =>
    obtain ⟨rep, writes⟩ := pr
    rw [hb] at h
    dsimp only at h
    injection h with hpair
    injection hpair with hres hws
    subst hres
    subst hws
    exact ⟨rep, rfl, rfl⟩

/-- Inversion of a completed run body: the report fields and the attempted
writes in terms of the extraction results. -/
theorem main_body_inv {j : Json} {rep : Report} {ws : List WriteOp}
    (h : main_body j = .ok (rep, ws)) :
    ∃ flat, flattenAll rep.tool_executions = .ok flat
      ∧ extract_tool_executions j = .ok rep.tool_executions
      ∧ rep.sorted_urls = sort_urls_by_relevance (extract_urls j) none
      ∧ ws = [WriteOp.jsonOut rep]
          ++ (if flat.isEmpty then [] else [WriteOp.toolCsv flat])
          ++ (if rep.sorted_urls.isEmpty then [] else [WriteOp.urlsCsv rep.sorted_urls]) := by
  rw [main_body] at h
  cases h1 : pyGet j "location".data (.str []) with
  | error e => rw [h1] at h; exact Except.noConfusion h
  | ok loc =>
  rw [h1] at h
  cases h2 : pyGet j "time".data (.str []) with
  | error e => rw [h2] at h; exact Except.noConfusion h
  | ok tim =>
  rw [h2] at h
  cases h3 : pyGet j "error".data (.str []) with
  | error e => rw [h3] at h; exact Except.noConfusion h
  | ok err =>
  rw [h3] at h
  cases h4 : pyGet j "observation".data (.str []) with
  | error e => rw [h4] at h; exact Except.noConfusion h
  | ok obs =>
  rw [h4] at h
  cases h5 : extract_chain_of_thought j with
  | error e => rw [h5] at h; exact Except.noConfusion h
  | ok chainRes =>
  rw [h5] at h
  cases h6 : extract_tool_executions j with
  | error e => rw [h6] at h; exact Except.noConfusion h
  | ok texecs =>
  rw [h6] at h
  dsimp only at h
  cases h7 : flattenAll texecs with
  | error e => rw [h7] at h; exact Except.noConfusion h
  | ok flat =>
  rw [h7] at h
  simp only [Except.ok.injEq, Prod.mk.injEq] at h
  obtain ⟨hrep, hws⟩ := h
  subst hrep
  subst hws
  exact ⟨flat, h7, rfl, rfl, rfl⟩

/-- C1 counterexample: the file content `(empty object)` parses successfully as
JSON — load_json returns it, not the absent result — and yet main returns early
at the load check with no outputs written, because the check tests Python
falsiness rather than load failure. -/
theorem claim_c1_counterexample :
    some (Json.obj .nil) ≠ (none : Option Json)
    ∧ main_run (some (Json.obj .nil)) = .ok (none, []) :=
  ⟨by simp, rfl⟩

/-- C1 (amended): main returns early, orderly and with no writes, exactly when
the loader fails or the loaded document is Python-falsy (null, false, 0, the
empty string, the empty array or the empty mapping); for a truthy document main
continues past the load check to metadata extraction, and whenever such a run
completes without an uncaught exception it has attempted the JSON report write. -/
theorem claim_c1_early_return :
    main_run none = .ok (none, [])
    ∧ (∀ j : Json, jsonFalsy j = true → main_run (some j) = .ok (none, []))
    ∧ (∀ j : Json, jsonFalsy j = false →
        ∀ res ws, main_run (some j) = .ok (res, ws) →
          ∃ rep, res = some rep ∧ WriteOp.jsonOut rep ∈ ws) := by
  refine ⟨rfl, fun j h => ?_, fun j h res ws hrun => ?_⟩
  · rw [main_run, if_pos (by simp [h])]
  · obtain ⟨rep, hres, hbody⟩ := main_run_inv h hrun
    obtain ⟨flat, -, -, -, hws⟩ := main_body_inv hbody
    exact ⟨rep, hres, hws ▸ List.mem_append_left _ (List.mem_append_left _ (by simp))⟩

/-- Witness for the amended C1 at a concrete truthy document. -/
theorem claim_c1_early_return_witness :
    ∃ rep, (some (⟨Json.str "x".data, .str [], .str [], .str [],
          .arr .nil, [], []⟩ : Report)) = some rep
      ∧ WriteOp.jsonOut rep
        ∈ [WriteOp.jsonOut ⟨Json.str "x".data, .str [], .str [], .str [],
            .arr .nil, [], []⟩] :=
  claim_c1_early_return.2.2 (Json.obj (.cons "location".data (.str "x".data) .nil)) rfl
    (some ⟨Json.str "x".data, .str [], .str [], .str [], .arr .nil, [], []⟩)
    [WriteOp.jsonOut ⟨Json.str "x".data, .str [], .str [], .str [], .arr .nil, [], []⟩] rfl

/-- C5: the end-to-end run on the specification's example document produces a
report whose metadata location is NYC, one tool-execution record, and exactly
the one URL, which scores 2 under the default keywords (flights and search). -/
theorem claim_c5_end_to_end :
    ∃ rep ws, main_run (some c5_doc) = .ok (some rep, ws)
      ∧ rep.metadata_location = Json.str "NYC".data
      ∧ rep.tool_executions.length = 1
      ∧ rep.sorted_urls = ["https://flights.example.com/search?x=1".data]
      ∧ relevance_score default_keywords "https://flights.example.com/search?x=1".data = 2 :=
  ⟨_, _, rfl, rfl, rfl, rfl, by decide⟩

/-- C6: flattening produces the four fixed cells with their defaults; on the
record with tool_name maps and nested params and no method_name or output, the
result is exactly the specified strings, and on the empty record all four
defaults appear. -/
theorem claim_c6_flatten_tool_execution :
    flatten_tool_execution (Json.obj (.cons "tool_name".data (.str "maps".data)
        (.cons "params".data (.obj (.cons "q".data (.str "sushi".data) .nil)) .nil)))
      = .ok ⟨.str "maps".data, .str [], "\x7b\"q\": \"sushi\"\x7d".data, "[]".data⟩
    ∧ flatten_tool_execution (Json.obj .nil)
      = .ok ⟨.str [], .str [], "\x7b\x7d".data, "[]".data⟩ := ⟨rfl, rfl⟩

/-- The accumulation loop concatenates the per-step records after the
accumulator, for well-formed steps. -/
theorem toolExecLoop_wf :
    ∀ (steps : List Json) (acc : List Json), (∀ step ∈ steps, stepWF step = true) →
      toolExecLoop acc steps = .ok (acc ++ concatToolExecs steps) := by
  intro steps
  induction steps with
  | nil => intro acc _; simp [toolExecLoop, concatToolExecs]
  | cons step rest ih =>
    intro acc hwf
    have hstep : stepWF step = true := hwf step (List.mem_cons_self step rest)
    have hrest : ∀ s ∈ rest, stepWF s = true :=
      fun s hs => hwf s (List.mem_cons_of_mem _ hs)
    rw [toolExecLoop]
    cases step with
    | obj fs =>
      cases hlk : fs.lookup teKey with
      | none =>
        have hse : stepExecs acc (.obj fs) = .ok acc := by
          simp [stepExecs, pyContains, JsonFields.hasKey, hlk]
        rw [hse]
        dsimp only
        rw [ih _ hrest]
        simp [concatToolExecs, stepRecords, hlk]
      | some v =>
        cases v with
        | arr xs =>
          have hse : stepExecs acc (.obj fs) = .ok (acc ++ xs.toList) := by
            simp [stepExecs, pyContains, JsonFields.hasKey, hlk, pyGetItem, pyIter]
          rw [hse]
          dsimp only
          rw [ih _ hrest]
          simp [concatToolExecs, stepRecords, hlk]
        | null => simp [stepWF, hlk] at hstep
        | bool b => simp [stepWF, hlk] at hstep
        | num n => simp [stepWF, hlk] at hstep
        | str s => simp [stepWF, hlk] at hstep
        | obj fs2 => simp [stepWF, hlk] at hstep
    | null => simp [stepWF] at hstep
    | bool b => simp [stepWF] at hstep
    | num n => simp [stepWF] at hstep
    | str s => simp [stepWF] at hstep
    | arr xs => simp [stepWF] at hstep

/-- C7: for every document whose chain_of_thought field is a sequence of
mapping steps (each step's tool_executions field, where present, being a
sequence of records), extract_tool_executions returns the flat concatenation of
every record of every step's tool_executions field, skipping steps without the
field, preserving step order then within-step order; and every completed run
places exactly these raw, unflattened records in the report's tool_executions
entry. -/
theorem claim_c7_extract_tool_executions (fs : JsonFields) (steps : JsonList)
    (hcot : fs.lookup cotKey = some (.arr steps))
    (hwf : ∀ step ∈ steps.toList, stepWF step = true) :
    extract_tool_executions (Json.obj fs) = .ok (concatToolExecs steps.toList)
    ∧ ∀ rep ws, main_run (some (Json.obj fs)) = .ok (some rep, ws) →
        rep.tool_executions = concatToolExecs steps.toList := by
  have hc : extract_chain_of_thought (Json.obj fs) = .ok ([], .arr steps) := by
    simp [extract_chain_of_thought, JsonFields.hasKey, hcot, JsonFields.getD]
  have h1 : extract_tool_executions (Json.obj fs) = .ok (concatToolExecs steps.toList) := by
    rw [extract_tool_executions, hc]
    dsimp only [pyIter]
    rw [toolExecLoop_wf steps.toList [] hwf]
    simp
  refine ⟨h1, fun rep ws h => ?_⟩
  have hf : jsonFalsy (Json.obj fs) = false := by
    cases fs with
    | nil => rw [JsonFields.lookup] at hcot; exact Option.noConfusion hcot
    | cons k v t => rfl
  obtain ⟨rep', hres, hbody⟩ := main_run_inv hf h
  injection hres with hre
  subst hre
  obtain ⟨flat, -, htex, -, -⟩ := main_body_inv hbody
  rw [h1] at htex
  injection htex with h2
  exact h2.symm

/-- Witness for C7 at the end-to-end document. -/
theorem claim_c7_extract_tool_executions_witness :
    extract_tool_executions c5_doc
      = .ok [Json.obj (.cons "tool_name".data (.str "flights".data)
          (.cons "params".data (.obj .nil)
            (.cons "output".data (.arr (.cons (.num 1) .nil)) .nil)))] :=
  ((claim_c7_extract_tool_executions
      (.cons "location".data (.str "NYC".data)
        (.cons cotKey (.arr (.cons
          (Json.obj (.cons teKey (.arr (.cons
            (Json.obj (.cons "tool_name".data (.str "flights".data)
              (.cons "params".data (.obj .nil)
                (.cons "output".data (.arr (.cons (.num 1) .nil)) .nil))))
            .nil)) .nil))
          .nil))
        (.cons "notes".data (.str "see https://flights.example.com/search?x=1".data) .nil)))
      (.cons
        (Json.obj (.cons teKey (.arr (.cons
          (Json.obj (.cons "tool_name".data (.str "flights".data)
            (.cons "params".data (.obj .nil)
              (.cons "output".data (.arr (.cons (.num 1) .nil)) .nil))))
          .nil)) .nil))
        .nil)
      rfl (by decide)).1).trans rfl

/-- Emptiness transfers through the flattening comprehension. -/
theorem flattenAll_nil_iff {texecs : List Json} {flat : List FlatExec}
    (h : flattenAll texecs = .ok flat) : flat = [] ↔ texecs = [] := by
  cases texecs with
  | nil =>
    rw [flattenAll] at h
    injection h with h'
    simp [← h']
  | cons e rest =>
    rw [flattenAll] at h
    cases hf : flatten_tool_execution e with
    | error er => rw [hf] at h; exact Except.noConfusion h
    | ok f =>
      rw [hf] at h
      dsimp only at h
      cases hr : flattenAll rest with
      | error er => rw [hr] at h; exact Except.noConfusion h
      | ok fl =>
        rw [hr] at h
        dsimp only at h
        injection h with h'
        constructor
        · intro hh
          rw [← h'] at hh
          exact absurd hh (by simp)
        · intro hh
          exact absurd hh (by simp)

/-- C8: in every run that gets past loading and completes, the
tool_executions.csv write is attempted exactly when at least one tool-execution
record was found, and the urls.csv write is attempted exactly when at least one
URL was discovered. -/
theorem claim_c8_csv_writes (j : Json) (rep : Report) (ws : List WriteOp)
    (h : main_run (some j) = .ok (some rep, ws)) :
    ((∃ rows, WriteOp.toolCsv rows ∈ ws) ↔ rep.tool_executions ≠ [])
    ∧ ((∃ rows, WriteOp.urlsCsv rows ∈ ws) ↔ extract_urls j ≠ []) := by
  have hf : jsonFalsy j = false := by
    cases hfj : jsonFalsy j
    · rfl
    · rw [main_run, if_pos (by simp [hfj])] at h
      injection h with h'
      obtain ⟨h1, -⟩ := Prod.mk.injEq .. ▸ h'
      exact Option.noConfusion h1
  obtain ⟨rep', hres, hbody⟩ := main_run_inv hf h
  injection hres with hre
  subst hre
  obtain ⟨flat, hflat, htex, hsort, hws⟩ := main_body_inv hbody
  have htool : flat = [] ↔ rep.tool_executions = [] := flattenAll_nil_iff hflat
  have hurl : rep.sorted_urls = [] ↔ extract_urls j = [] := by
    rw [hsort]
    exact sort_urls_eq_nil_iff (extract_urls j) none
  subst hws
  constructor
  · by_cases he : flat.isEmpty
    · have hfe : flat = [] := by simpa [List.isEmpty_iff] using he
      have hte : rep.tool_executions = [] := htool.mp hfe
      by_cases hu : rep.sorted_urls.isEmpty <;> simp [he, hu, hte]
    · have hfe : ¬flat = [] := by simpa [List.isEmpty_iff] using he
      have hte : ¬rep.tool_executions = [] := fun hh => hfe (htool.mpr hh)
      by_cases hu : rep.sorted_urls.isEmpty <;>
        exact ⟨fun _ => hte, fun _ => ⟨flat, by simp [he, hu]⟩⟩
  · by_cases hu : rep.sorted_urls.isEmpty
    · have hue : rep.sorted_urls = [] := by simpa [List.isEmpty_iff] using hu
      have hxe : extract_urls j = [] := hurl.mp hue
      by_cases he : flat.isEmpty <;> simp [he, hu, hxe]
    · have hue : ¬rep.sorted_urls = [] := by simpa [List.isEmpty_iff] using hu
      have hxe : ¬extract_urls j = [] := fun hh => hue (hurl.mpr hh)
      by_cases he : flat.isEmpty <;>
        exact ⟨fun _ => hxe, fun _ => ⟨rep.sorted_urls, by simp [he, hu]⟩⟩

/-- Witness for C8 at the end-to-end document. -/
theorem claim_c8_csv_writes_witness :
    ∃ rep ws, main_run (some c5_doc) = .ok (some rep, ws)
      ∧ ((∃ rows, WriteOp.toolCsv rows ∈ ws) ↔ rep.tool_executions ≠ [])
      ∧ ((∃ rows, WriteOp.urlsCsv rows ∈ ws) ↔ extract_urls c5_doc ≠ []) :=
  ⟨_, _, rfl, claim_c8_csv_writes c5_doc _ _ rfl⟩

/-- Packing a valid scalar value into a character and reading it back. -/
theorem toNat_ofNat_valid {n : Nat} (hv : n.isValidChar) : (Char.ofNat n).toNat = n := by
  rw [Char.ofNat, dif_pos hv]
  rfl

/-- Small scalar values (below the surrogate range) are always valid. -/
theorem toNat_ofNat_small {n : Nat} (h : n < 55296) : (Char.ofNat n).toNat = n :=
  toNat_ofNat_valid (Or.inl h)

/-- The scalar value of every character avoids the surrogate range. -/
theorem char_range (c : Char) : c.toNat < 55296 ∨ (57343 < c.toNat ∧ c.toNat < 1114112) :=
  c.valid

/-- Reading back one hexadecimal digit. -/
theorem hexVal_hexDigit {k : Nat} (h : k < 16) : hexVal (hexDigit k) = k := by
  interval_cases k <;> decide

/-- Reading back the four hexadecimal digits of a basic-plane value. -/
theorem hexQuad_hexDigits {n : Nat} (h : n < 65536) :
    hexQuad (hexDigit (n / 4096 % 16)) (hexDigit (n / 256 % 16))
      (hexDigit (n / 16 % 16)) (hexDigit (n % 16)) = n := by
  rw [hexQuad, hexVal_hexDigit (Nat.mod_lt _ (by omega)),
    hexVal_hexDigit (Nat.mod_lt _ (by omega)), hexVal_hexDigit (Nat.mod_lt _ (by omega)),
    hexVal_hexDigit (Nat.mod_lt _ (by omega))]
  omega

/-- Digit characters emitted by the decimal printer. -/
theorem isDigitCh_ofNat {n : Nat} (h : n < 10) : isDigitCh (Char.ofNat (48 + n)) = true := by
  simp only [isDigitCh, toNat_ofNat_small (by omega : 48 + n < 55296)]
  simp only [Bool.and_eq_true, decide_eq_true_eq]
  omega

/-- Every character of a printed natural number is a digit. -/
theorem natReprAux_digits : ∀ (fuel n : Nat), ∀ c ∈ natReprAux fuel n, isDigitCh c = true := by
  intro fuel
  induction fuel with
  | zero => intro n c hc; simp [natReprAux] at hc
  | succ f ih =>
    intro n c hc
    rw [natReprAux] at hc
    by_cases h : n < 10
    · rw [if_pos h] at hc
      rcases List.mem_singleton.mp hc with rfl
      exact isDigitCh_ofNat h
    · rw [if_neg h] at hc
      rcases List.mem_append.mp hc with hm | hm
      · exact ih _ c hm
      · rcases List.mem_singleton.mp hm with rfl
        exact isDigitCh_ofNat (Nat.mod_lt _ (by omega))

/-- The printed form of a natural number is never empty. -/
theorem natReprAux_ne_nil (fuel n : Nat) (h : 0 < fuel) : natReprAux fuel n ≠ [] := by
  cases fuel with
  | zero => omega
  | succ f =>
    rw [natReprAux]
    by_cases hn : n < 10
    · rw [if_pos hn]; simp
    · rw [if_neg hn]; simp

/-- Reading the decimal digits of a printed value recovers the value. -/
theorem digitsVal_natReprAux : ∀ (fuel n : Nat), n < fuel → digitsVal (natReprAux fuel n) = n := by
  intro fuel
  induction fuel with
  | zero => intro n h; omega
  | succ f ih =>
    intro n h
    rw [natReprAux]
    by_cases hn : n < 10
    · rw [if_pos hn]
      simp [digitsVal, toNat_ofNat_small (by omega : 48 + n < 55296)]
    · rw [if_neg hn]
      have hdiv : n / 10 < f := by
        have h1 : n / 10 < n := Nat.div_lt_self (by omega) (by omega)
        omega
      simp only [digitsVal, List.foldl_append]
      rw [show List.foldl (fun a c => 10 * a + (c.toNat - 48)) 0 (natReprAux f (n / 10))
            = digitsVal (natReprAux f (n / 10)) from rfl, ih _ hdiv]
      simp only [List.foldl_cons, List.foldl_nil]
      rw [toNat_ofNat_small (by omega : 48 + n % 10 < 55296)]
      omega

/-- Splitting takeWhile and dropWhile over a satisfying prefix and a failing head. -/
theorem takeWhile_drop_append (p : Char → Bool) :
    ∀ (l r : Str), (∀ c ∈ l, p c = true) →
      (r = [] ∨ ∃ c rs, r = c :: rs ∧ p c = false) →
      (l ++ r).takeWhile p = l ∧ (l ++ r).dropWhile p = r := by
  intro l
  induction l with
  | nil =>
    intro r _ hr
    rcases hr with rfl | ⟨c, rs, rfl, hc⟩
    · simp
    · simp [List.takeWhile_cons, List.dropWhile_cons, hc]
  | cons a l ih =>
    intro r hall hr
    have ha : p a = true := hall a (List.mem_cons_self a l)
    obtain ⟨h1, h2⟩ := ih r (fun c hc => hall c (List.mem_cons_of_mem _ hc)) hr
    constructor
    · simp [List.takeWhile_cons, ha, h1]
    · simp [List.dropWhile_cons, ha, h2]

/-- A quote closes the string body. -/
theorem psbF_quote (f : Nat) (w : Str) : parseStringBody (f + 1) ('"' :: w) = some ([], w) := rfl

/-- A decoded escape contributes its character. -/
theorem psbF_bslash {w : Str} {c2 : Char} {r2 : Str} (h : decodeEsc w = some (c2, r2))
    (f : Nat) : parseStringBody (f + 1) ('\\' :: w) = consMap c2 (parseStringBody f r2) := by
  rw [parseStringBody, if_neg (by decide), if_pos (by decide), h]

/-- Any other character is taken verbatim. -/
theorem psbF_plain {c : Char} (h1 : (c == '"') = false) (h2 : (c == '\\') = false)
    (f : Nat) (w : Str) :
    parseStringBody (f + 1) (c :: w) = consMap c (parseStringBody f w) := by
  rw [parseStringBody]
  rw [if_neg (by rw [h1]; decide), if_neg (by rw [h2]; decide)]

/-- Reducing `escapeChar` on a character that needs none of the short escapes. -/
theorem escapeChar_other {c : Char} (h1 : ¬c = '"') (h2 : ¬c = '\\') (h3 : ¬c = '\n')
    (h4 : ¬c = '\t') (h5 : ¬c = '\r') (h6 : ¬c.toNat = 8) (h7 : ¬c.toNat = 12) :
    escapeChar c = if c.toNat < 32 ∨ 127 ≤ c.toNat then
        (if c.toNat < 65536 then '\\' :: 'u' :: hex4 c.toNat
         else ('\\' :: 'u' :: hex4 (55296 + (c.toNat - 65536) / 1024)) ++
              ('\\' :: 'u' :: hex4 (56320 + (c.toNat - 65536) % 1024)))
      else [c] := by
  rw [escapeChar]
  rw [if_neg (fun hh => h1 (eq_of_beq hh)), if_neg (fun hh => h2 (eq_of_beq hh)),
    if_neg (fun hh => h3 (eq_of_beq hh)), if_neg (fun hh => h4 (eq_of_beq hh)),
    if_neg (fun hh => h5 (eq_of_beq hh)), if_neg (fun hh => h6 (eq_of_beq hh)),
    if_neg (fun hh => h7 (eq_of_beq hh))]

/-- Reducing the escape decoder on a `u` escape with its four digits. -/
theorem decodeEsc_u (a b c2 d : Char) (w : Str) :
    decodeEsc ('u' :: a :: b :: c2 :: d :: w)
      = if 55296 ≤ hexQuad a b c2 d ∧ hexQuad a b c2 d ≤ 56319
        then decodeSurr (hexQuad a b c2 d) w
        else some (Char.ofNat (hexQuad a b c2 d), w) := rfl

/-- Reducing the surrogate decoder on a second `u` escape. -/
theorem decodeSurr_cons (n : Nat) (e2 f2 g2 h2 : Char) (w : Str) :
    decodeSurr n ('\\' :: 'u' :: e2 :: f2 :: g2 :: h2 :: w)
      = if 56320 ≤ hexQuad e2 f2 g2 h2 ∧ hexQuad e2 f2 g2 h2 ≤ 57343
        then some (Char.ofNat (65536 + 1024 * (n - 55296) + (hexQuad e2 f2 g2 h2 - 56320)), w)
        else none := rfl

/-- Reading back an escaped string body: parsing undoes `escapeStr` up to the
closing quote, leaving the remainder untouched. -/
theorem psb_escape : ∀ (s : Str) (fuel : Nat) (rest : Str), s.length < fuel →
    parseStringBody fuel (escapeStr s ++ '"' :: rest) = some (s, rest) := by
  intro s
  induction s with
  | nil =>
    intro fuel rest hf
    cases fuel with
    | zero => exact absurd hf (Nat.not_lt_zero _)
    | succ f => exact psbF_quote f rest
  | cons c t ih =>
    intro fuel rest hf
    cases fuel with
    | zero => exact absurd hf (Nat.not_lt_zero _)
    | succ f =>
      have hf2 : t.length < f := by
        rw [List.length_cons] at hf
        omega
      rw [escapeStr, List.append_assoc]
      by_cases h1 : c = '"'
      · subst h1
        rw [show escapeChar '"' ++ (escapeStr t ++ '"' :: rest)
              = '\\' :: '"' :: (escapeStr t ++ '"' :: rest) from rfl]
        rw [psbF_bslash (show decodeEsc ('"' :: (escapeStr t ++ '"' :: rest))
              = some ('"', escapeStr t ++ '"' :: rest) from rfl) f]
        rw [ih f rest hf2]
        rfl
      by_cases h2 : c = '\\'
      · subst h2
        rw [show escapeChar '\\' ++ (escapeStr t ++ '"' :: rest)
              = '\\' :: '\\' :: (escapeStr t ++ '"' :: rest) from rfl]
        rw [psbF_bslash (show decodeEsc ('\\' :: (escapeStr t ++ '"' :: rest))
              = some ('\\', escapeStr t ++ '"' :: rest) from rfl) f]
        rw [ih f rest hf2]
        rfl
      by_cases h3 : c = '\n'
      · subst h3
        rw [show escapeChar '\n' ++ (escapeStr t ++ '"' :: rest)
              = '\\' :: 'n' :: (escapeStr t ++ '"' :: rest) from rfl]
        rw [psbF_bslash (show decodeEsc ('n' :: (escapeStr t ++ '"' :: rest))
              = some ('\n', escapeStr t ++ '"' :: rest) from rfl) f]
        rw [ih f rest hf2]
        rfl
      by_cases h4 : c = '\t'
      · subst h4
        rw [show escapeChar '\t' ++ (escapeStr t ++ '"' :: rest)
              = '\\' :: 't' :: (escapeStr t ++ '"' :: rest) from rfl]
        rw [psbF_bslash (show decodeEsc ('t' :: (escapeStr t ++ '"' :: rest))
              = some ('\t', escapeStr t ++ '"' :: rest) from rfl) f]
        rw [ih f rest hf2]
        rfl
      by_cases h5 : c = '\r'
      · subst h5
        rw [show escapeChar '\r' ++ (escapeStr t ++ '"' :: rest)
              = '\\' :: 'r' :: (escapeStr t ++ '"' :: rest) from rfl]
        rw [psbF_bslash (show decodeEsc ('r' :: (escapeStr t ++ '"' :: rest))
              = some ('\r', escapeStr t ++ '"' :: rest) from rfl) f]
        rw [ih f rest hf2]
        rfl
      by_cases h6 : c.toNat = 8
      · have hc : c = Char.ofNat 8 := by rw [← Char.ofNat_toNat c, h6]
        subst hc
        rw [show escapeChar (Char.ofNat 8) ++ (escapeStr t ++ '"' :: rest)
              = '\\' :: 'b' :: (escapeStr t ++ '"' :: rest) from rfl]
        rw [psbF_bslash (show decodeEsc ('b' :: (escapeStr t ++ '"' :: rest))
              = some (Char.ofNat 8, escapeStr t ++ '"' :: rest) from rfl) f]
        rw [ih f rest hf2]
        rfl
      by_cases h7 : c.toNat = 12
      · have hc : c = Char.ofNat 12 := by rw [← Char.ofNat_toNat c, h7]
        subst hc
        rw [show escapeChar (Char.ofNat 12) ++ (escapeStr t ++ '"' :: rest)
              = '\\' :: 'f' :: (escapeStr t ++ '"' :: rest) from rfl]
        rw [psbF_bslash (show decodeEsc ('f' :: (escapeStr t ++ '"' :: rest))
              = some (Char.ofNat 12, escapeStr t ++ '"' :: rest) from rfl) f]
        rw [ih f rest hf2]
        rfl
      rw [escapeChar_other h1 h2 h3 h4 h5 h6 h7]
      by_cases hr : c.toNat < 32 ∨ 127 ≤ c.toNat
      · rw [if_pos hr]
        by_cases hbmp : c.toNat < 65536
        · rw [if_pos hbmp, hex4]
          simp only [List.cons_append, List.nil_append]
          have h0 := decodeEsc_u (hexDigit (c.toNat / 4096 % 16)) (hexDigit (c.toNat / 256 % 16))
            (hexDigit (c.toNat / 16 % 16)) (hexDigit (c.toNat % 16))
            (escapeStr t ++ '"' :: rest)
          rw [hexQuad_hexDigits hbmp] at h0
          rw [if_neg (by rcases char_range c with h | h <;> omega), Char.ofNat_toNat] at h0
          rw [psbF_bslash h0 f, ih f rest hf2]
          rfl
        · rw [if_neg hbmp, hex4, hex4]
          have hup : c.toNat < 1114112 := by
            rcases char_range c with h | h
            · omega
            · omega
          simp only [List.cons_append, List.nil_append, List.append_assoc]
          have h0 := decodeEsc_u (hexDigit ((55296 + (c.toNat - 65536) / 1024) / 4096 % 16))
            (hexDigit ((55296 + (c.toNat - 65536) / 1024) / 256 % 16))
            (hexDigit ((55296 + (c.toNat - 65536) / 1024) / 16 % 16))
            (hexDigit ((55296 + (c.toNat - 65536) / 1024) % 16))
            ('\\' :: 'u' :: hexDigit ((56320 + (c.toNat - 65536) % 1024) / 4096 % 16)
              :: hexDigit ((56320 + (c.toNat - 65536) % 1024) / 256 % 16)
              :: hexDigit ((56320 + (c.toNat - 65536) % 1024) / 16 % 16)
              :: hexDigit ((56320 + (c.toNat - 65536) % 1024) % 16)
              :: (escapeStr t ++ '"' :: rest))
          rw [hexQuad_hexDigits (by omega : 55296 + (c.toNat - 65536) / 1024 < 65536)] at h0
          rw [if_pos (by omega)] at h0
          rw [decodeSurr_cons] at h0
          rw [hexQuad_hexDigits (by omega : 56320 + (c.toNat - 65536) % 1024 < 65536)] at h0
          rw [if_pos (by omega)] at h0
          rw [show 65536 + 1024 * (55296 + (c.toNat - 65536) / 1024 - 55296)
                + (56320 + (c.toNat - 65536) % 1024 - 56320) = c.toNat from by omega] at h0
          rw [Char.ofNat_toNat] at h0
          rw [psbF_bslash h0 f, ih f rest hf2]
          rfl
      · rw [if_neg hr]
        rw [show ([c] : Str) ++ (escapeStr t ++ '"' :: rest)
              = c :: (escapeStr t ++ '"' :: rest) from rfl]
        rw [psbF_plain (beq_eq_false_iff_ne.mpr h1) (beq_eq_false_iff_ne.mpr h2), ih f rest hf2]
        rfl

/-- Reading back a printed natural number followed by a non-digit remainder. -/
theorem parseNat_natRepr (m : Nat) (rest : Str) (h : noDigitHead rest = true) :
    parseNat (natRepr m ++ rest) = some (m, rest) := by
  have hall : ∀ c ∈ natRepr m, isDigitCh c = true := natReprAux_digits _ _
  have hside : rest = [] ∨ ∃ c rs, rest = c :: rs ∧ isDigitCh c = false := by
    cases rest with
    | nil => exact Or.inl rfl
    | cons c rs =>
      refine Or.inr ⟨c, rs, rfl, ?_⟩
      rw [noDigitHead] at h
      simpa using h
  obtain ⟨htw, hdw⟩ := takeWhile_drop_append isDigitCh (natRepr m) rest hall hside
  rw [parseNat, htw, hdw]
  rw [if_neg (by simpa [List.isEmpty_iff] using natReprAux_ne_nil (m + 1) m (by omega))]
  rw [show digitsVal (natRepr m) = m from digitsVal_natReprAux (m + 1) m (by omega)]

/-- parseVal dispatch on the head character: literal null. -/
theorem pv_n (f : Nat) (w : Str) :
    parseVal (f + 1) ('n' :: w) = pLit3 'u' 'l' 'l' Json.null w := rfl

/-- parseVal dispatch: literal true. -/
theorem pv_t (f : Nat) (w : Str) :
    parseVal (f + 1) ('t' :: w) = pLit3 'r' 'u' 'e' (Json.bool true) w := rfl

/-- parseVal dispatch: literal false. -/
theorem pv_f (f : Nat) (w : Str) :
    parseVal (f + 1) ('f' :: w) = pLit4 'a' 'l' 's' 'e' (Json.bool false) w := rfl

/-- parseVal dispatch: string literal. -/
theorem pv_q (f : Nat) (w : Str) : parseVal (f + 1) ('"' :: w) = pStr w := rfl

/-- parseVal dispatch: negative number. -/
theorem pv_m (f : Nat) (w : Str) : parseVal (f + 1) ('-' :: w) = pNeg w := rfl

/-- parseVal dispatch: array. -/
theorem pv_lb (f : Nat) (w : Str) : parseVal (f + 1) ('[' :: w) = parseArrBody f w := rfl

/-- parseVal dispatch: object. -/
theorem pv_ob (f : Nat) (w : Str) :
    parseVal (f + 1) (Char.ofNat 123 :: w) = parseObjBody f w := rfl

/-- parseVal dispatch: a digit starts a non-negative number. -/
theorem pv_digit {c : Char} (hd : isDigitCh c = true) (f : Nat) (w : Str) :
    parseVal (f + 1) (c :: w) = pNum (c :: w) := by
  rw [parseVal]
  rw [if_neg (fun hh => absurd (eq_of_beq hh ▸ hd) (by decide)),
      if_neg (fun hh => absurd (eq_of_beq hh ▸ hd) (by decide)),
      if_neg (fun hh => absurd (eq_of_beq hh ▸ hd) (by decide)),
      if_neg (fun hh => absurd (eq_of_beq hh ▸ hd) (by decide)),
      if_neg (fun hh => absurd (eq_of_beq hh ▸ hd) (by decide)),
      if_pos hd]

/-- Reading a successfully parsed string body as a JSON string. -/
theorem pStr_ok {w k r : Str} (h : parseStr w = some (k, r)) :
    pStr w = some (Json.str k, r) := by
  rw [pStr, h]

/-- Reading a successfully parsed digit run as a number. -/
theorem pNum_ok {w : Str} {n : Nat} {r : Str} (h : parseNat w = some (n, r)) :
    pNum w = some (Json.num (n : Int), r) := by
  rw [pNum, h]

/-- Reading a successfully parsed digit run after a minus sign. -/
theorem pNeg_ok {w : Str} {n : Nat} {r : Str} (h : parseNat w = some (n, r)) :
    pNeg w = some (Json.num (-(n : Int)), r) := by
  rw [pNeg, h]

/-- Escaping a character always produces at least one character. -/
theorem escapeChar_length_pos (c : Char) : 0 < (escapeChar c).length := by
  rw [escapeChar]
  split_ifs <;> simp [hex4]

/-- Escaping never shortens a string. -/
theorem escapeStr_length (s : Str) : s.length ≤ (escapeStr s).length := by
  induction s with
  | nil => simp [escapeStr]
  | cons c t ih =>
    rw [escapeStr]
    have h1 := escapeChar_length_pos c
    simp only [List.length_append, List.length_cons]
    omega

/-- Reading back an escaped string with the length-derived fuel. -/
theorem parseStr_escape (s rest : Str) :
    parseStr (escapeStr s ++ '"' :: rest) = some (s, rest) := by
  rw [parseStr]
  apply psb_escape
  have h1 := escapeStr_length s
  simp only [List.length_append, List.length_cons]
  omega

/-- The first character of a dumped value is never a closing bracket or brace. -/
theorem dumps_head : ∀ v : Json, ∃ c w, dumps v = c :: w
    ∧ (c == ']') = false ∧ (c.toNat == 125) = false := by
  intro v
  cases v with
  | null => exact ⟨'n', "ull".data, rfl, by decide, by decide⟩
  | bool b =>
    cases b with
    | true => exact ⟨'t', "rue".data, rfl, by decide, by decide⟩
    | false => exact ⟨'f', "alse".data, rfl, by decide, by decide⟩
  | num n =>
    by_cases hn : n < 0
    · refine ⟨'-', natRepr (-n).toNat, ?_, by decide, by decide⟩
      rw [dumps, intRepr, if_pos hn]
    · obtain ⟨c, w, hcw⟩ :=
        List.exists_cons_of_ne_nil (natReprAux_ne_nil (n.toNat + 1) n.toNat (by omega))
      have hmem : c ∈ natReprAux (n.toNat + 1) n.toNat := by
        rw [hcw]; exact List.mem_cons_self c w
      have hdig : isDigitCh c = true := natReprAux_digits _ _ c hmem
      have hrange : 48 ≤ c.toNat ∧ c.toNat ≤ 57 := by
        simpa [isDigitCh, Bool.and_eq_true, decide_eq_true_eq] using hdig
      refine ⟨c, w, ?_, ?_, ?_⟩
      · rw [dumps, intRepr, if_neg hn]; exact hcw
      · exact beq_eq_false_iff_ne.mpr (fun he => absurd (he ▸ hdig) (by decide))
      · exact beq_eq_false_iff_ne.mpr (by omega)
  | str s => exact ⟨'"', escapeStr s ++ ['"'], rfl, by decide, by decide⟩
  | arr xs =>
    cases xs with
    | nil => exact ⟨'[', [']'], rfl, by decide, by decide⟩
    | cons h t =>
      exact ⟨'[', (dumps h ++ dumpsItems t) ++ [']'], rfl, by decide, by decide⟩
  | obj fs =>
    cases fs with
    | nil => exact ⟨Char.ofNat 123, [Char.ofNat 125], rfl, by decide, by decide⟩
    | cons k v t =>
      exact ⟨Char.ofNat 123,
        (dumpStr k ++ ':' :: ' ' :: dumps v ++ dumpsFields t) ++ [Char.ofNat 125],
        rfl, by decide, by decide⟩

/-- Every value needs at least one unit of fuel. -/
theorem costJ_pos : ∀ v : Json, 1 ≤ costJ v
  | .null => le_refl 1
  | .bool _ => le_refl 1
  | .num _ => le_refl 1
  | .str _ => le_refl 1
  | .arr .nil => by rw [costJ]; omega
  | .arr (.cons h t) => by rw [costJ]; omega
  | .obj .nil => by rw [costJ]; omega
  | .obj (.cons k v t) => by rw [costJ]; omega

/-- Reading back a dumped value, the dumped items of a non-empty array, and the
dumped entries of a non-empty object, given enough fuel. -/
theorem RT_all : ∀ fuel : Nat,
    (∀ (v : Json) (rest : Str), costJ v ≤ fuel → noDigitHead rest = true →
      parseVal fuel (dumps v ++ rest) = some (v, rest))
    ∧ (∀ (hd : Json) (t : JsonList) (rest : Str), costL (.cons hd t) ≤ fuel →
      parseItems fuel (dumps hd ++ (dumpsItems t ++ ']' :: rest)) = some (.cons hd t, rest))
    ∧ (∀ (k : Str) (v : Json) (t : JsonFields) (rest : Str), costF (.cons k v t) ≤ fuel →
      parseFields fuel
          ('"' :: (escapeStr k ++ '"' :: ':' :: ' ' ::
            (dumps v ++ (dumpsFields t ++ Char.ofNat 125 :: rest))))
        = some (.cons k v t, rest)) := by
  intro fuel
  induction fuel using Nat.strong_induction_on with
  | _ fuel ih =>
  refine ⟨?_, ?_, ?_⟩
  · intro v rest hc hr
    cases fuel with
    | zero => exact absurd (le_trans (costJ_pos v) hc) (by omega)
    | succ f =>
      cases v with
      | null => rfl
      | bool b => cases b <;> rfl
      | num n =>
        by_cases hn : n < 0
        · rw [show dumps (Json.num n) = intRepr n from rfl, intRepr, if_pos hn,
            List.cons_append, pv_m, pNeg_ok (parseNat_natRepr (-n).toNat rest hr)]
          rw [Int.toNat_of_nonneg (by omega), neg_neg]
        · have hne := natReprAux_ne_nil (n.toNat + 1) n.toNat (by omega)
          obtain ⟨c, w, hcw⟩ := List.exists_cons_of_ne_nil hne
          have hmem : c ∈ natReprAux (n.toNat + 1) n.toNat := by
            rw [hcw]; exact List.mem_cons_self c w
          have hdig : isDigitCh c = true := natReprAux_digits _ _ c hmem
          rw [show dumps (Json.num n) = natRepr n.toNat from by
            rw [dumps, intRepr, if_neg hn]]
          rw [show natRepr n.toNat = c :: w from hcw, List.cons_append, pv_digit hdig]
          rw [show c :: (w ++ rest) = natRepr n.toNat ++ rest from by
            rw [show natRepr n.toNat = c :: w from hcw, List.cons_append]]
          rw [pNum_ok (parseNat_natRepr n.toNat rest hr)]
          rw [Int.toNat_of_nonneg (by omega)]
      | str s =>
        rw [show dumps (Json.str s) ++ rest = '"' :: (escapeStr s ++ '"' :: rest) from by
          simp [dumps, dumpStr]]
        rw [pv_q, pStr_ok (parseStr_escape s rest)]
      | arr xs =>
        cases xs with
        | nil =>
          cases f with
          | zero => rw [costJ] at hc; omega
          | succ f2 => rfl
        | cons h t =>
          rw [costJ] at hc
          cases f with
          | zero => have := costJ_pos h; rw [costL] at hc; omega
          | succ f2 =>
            rw [show dumps (Json.arr (.cons h t)) ++ rest
                  = '[' :: (dumps h ++ (dumpsItems t ++ ']' :: rest)) from by
              simp [dumps]]
            rw [pv_lb]
            obtain ⟨c0, w0, hc0, hne0, -⟩ := dumps_head h
            rw [hc0, List.cons_append, parseArrBody, if_neg (by rw [hne0]; decide)]
            rw [show c0 :: (w0 ++ (dumpsItems t ++ ']' :: rest))
                  = dumps h ++ (dumpsItems t ++ ']' :: rest) from by
              rw [hc0, List.cons_append]]
            rw [(ih f2 (by omega)).2.1 h t rest (by omega)]
      | obj fs =>
        cases fs with
        | nil =>
          cases f with
          | zero => rw [costJ] at hc; omega
          | succ f2 => rfl
        | cons k v t =>
          rw [costJ] at hc
          cases f with
          | zero => rw [costF] at hc; omega
          | succ f2 =>
            rw [show dumps (Json.obj (.cons k v t)) ++ rest
                  = Char.ofNat 123 :: ('"' :: (escapeStr k ++ '"' :: ':' :: ' ' ::
                    (dumps v ++ (dumpsFields t ++ Char.ofNat 125 :: rest)))) from by
              simp [dumps, dumpStr]]
            rw [pv_ob, parseObjBody, if_neg (by decide)]
            rw [(ih f2 (by omega)).2.2 k v t rest (by omega)]
  · intro hd t rest hc
    cases fuel with
    | zero =>
      rw [costL] at hc
      have := costJ_pos hd
      omega
    | succ f =>
      have hnd : noDigitHead (dumpsItems t ++ ']' :: rest) = true := by
        cases t <;> rfl
      rw [costL] at hc
      rw [parseItems]
      rw [(ih f (by omega)).1 hd (dumpsItems t ++ ']' :: rest) (by omega) hnd]
      cases t with
      | nil => rfl
      | cons h2 t2 =>
        rw [show dumpsItems (JsonList.cons h2 t2) ++ ']' :: rest
              = ',' :: ' ' :: (dumps h2 ++ (dumpsItems t2 ++ ']' :: rest)) from by
          simp [dumpsItems]]
        have hrec := (ih f (by omega)).2.1 h2 t2 rest (by rw [costL]; rw [costL] at hc; omega)
        show (match parseItems f (dumps h2 ++ (dumpsItems t2 ++ ']' :: rest)) with
              | some (xs, r3) => some (JsonList.cons hd xs, r3)
              | none => none) = some (JsonList.cons hd (JsonList.cons h2 t2), rest)
        rw [hrec]
  · intro k v t rest hc
    cases fuel with
    | zero => rw [costF] at hc; omega
    | succ p =>
      rw [costF] at hc
      cases p with
      | zero => omega
      | succ q =>
        rw [parseFields, if_pos (by decide)]
        rw [parseStr_escape k (':' :: ' ' :: (dumps v ++ (dumpsFields t ++ Char.ofNat 125 :: rest)))]
        have hndv : noDigitHead (dumpsFields t ++ Char.ofNat 125 :: rest) = true := by
          cases t <;> rfl
        show (match parseVal (q + 1) (dumps v ++ (dumpsFields t ++ Char.ofNat 125 :: rest)) with
              | some (v2, r3) => parseFieldsTail (q + 1) k v2 r3
              | none => none) = some (JsonFields.cons k v t, rest)
        rw [(ih (q + 1) (by omega)).1 v (dumpsFields t ++ Char.ofNat 125 :: rest)
          (by omega) hndv]
        show parseFieldsTail (q + 1) k v (dumpsFields t ++ Char.ofNat 125 :: rest)
          = some (JsonFields.cons k v t, rest)
        cases t with
        | nil => rfl
        | cons k2 v2 t2 =>
          cases q with
          | zero => rw [costF] at hc; omega
          | succ g =>
            rw [show dumpsFields (JsonFields.cons k2 v2 t2) ++ Char.ofNat 125 :: rest
                  = ',' :: ' ' :: ('"' :: (escapeStr k2 ++ '"' :: ':' :: ' ' ::
                    (dumps v2 ++ (dumpsFields t2 ++ Char.ofNat 125 :: rest)))) from by
              simp [dumpsFields, dumpStr]]
            rw [parseFieldsTail, if_neg (by decide), if_pos (by decide)]
            rw [pftComma]
            rw [(ih g (by omega)).2.2 k2 v2 t2 rest (by rw [costF]; rw [costF] at hc; omega)]

mutual

/-- The fuel bound that loads derives from the input length suffices to read
back any dumped value. -/
theorem costJ_le : ∀ v : Json, costJ v ≤ 2 * (dumps v).length + 1
  | .null => by rw [costJ]; omega
  | .bool b => by rw [costJ]; omega
  | .num n => by rw [costJ]; omega
  | .str s => by rw [costJ]; omega
  | .arr .nil => by
    have h2 : (dumps (Json.arr JsonList.nil)).length = 2 := rfl
    rw [costJ]; omega
  | .arr (.cons h t) => by
    have hh := costJ_le h
    have ht := costL_le t
    rw [costJ, costL]
    simp only [dumps, List.length_append, List.length_cons, List.length_nil]
    omega
  | .obj .nil => by
    have h2 : (dumps (Json.obj JsonFields.nil)).length = 2 := rfl
    rw [costJ]; omega
  | .obj (.cons k v t) => by
    have hv := costJ_le v
    have ht := costF_le t
    rw [costJ, costF]
    simp only [dumps, dumpStr, List.length_append, List.length_cons, List.length_nil]
    omega

/-- The items of a non-empty array parse within twice their dumped length. -/
theorem costL_le : ∀ l : JsonList, costL l ≤ 2 * (dumpsItems l).length
  | .nil => by rw [costL]; omega
  | .cons h t => by
    have hh := costJ_le h
    have ht := costL_le t
    rw [costL]
    simp only [dumpsItems, List.length_append, List.length_cons]
    omega

/-- The entries of a non-empty object parse within twice their dumped length. -/
theorem costF_le : ∀ l : JsonFields, costF l ≤ 2 * (dumpsFields l).length
  | .nil => by rw [costF]; omega
  | .cons k v t => by
    have hv := costJ_le v
    have ht := costF_le t
    rw [costF]
    simp only [dumpsFields, dumpStr, List.length_append, List.length_cons, List.length_nil]
    omega

end

/-- The model of json.loads inverts the model of json.dumps on every value. -/
theorem loads_dumps (v : Json) : loads (dumps v) = some v := by
  have h := (RT_all (2 * (dumps v).length + 1)).1 v []
    (by have := costJ_le v; omega) rfl
  rw [List.append_nil] at h
  rw [loads, h]

/-- C10: Round-trip of the serialized cells: for every tool-execution record
whose fields are JSON values (a mapping, so that flattening succeeds), parsing
the params string of the flattened record as JSON yields exactly the record's
original params field (the empty mapping when absent), and parsing the output
string yields exactly the original output field (the empty sequence when
absent). -/
theorem claim_c10_roundtrip (fs : JsonFields) (f : FlatExec)
    (h : flatten_tool_execution (Json.obj fs) = .ok f) :
    loads f.params = some (fs.getD "params".data (.obj .nil))
    ∧ loads f.output = some (fs.getD "output".data (.arr .nil)) := by
  rw [flatten_tool_execution] at h
  injection h with h
  subst h
  exact ⟨loads_dumps _, loads_dumps _⟩

/-- C10 witness: the round-trip at a concrete record with nested params and an
absent output. -/
theorem claim_c10_roundtrip_witness :
    loads "\x7b\"q\": \"sushi\"\x7d".data
        = some (Json.obj (.cons "q".data (.str "sushi".data) .nil))
    ∧ loads "[]".data = some (Json.arr .nil) :=
  claim_c10_roundtrip
    (.cons "params".data (.obj (.cons "q".data (.str "sushi".data) .nil)) .nil)
    ⟨.str [], .str [], "\x7b\"q\": \"sushi\"\x7d".data, "[]".data⟩ rfl

end JsonParserPy
